import Mathlib

/-!
Verification of the `0s` repository tool (src/0s.go).

The development shallow-embeds the parts of the program the verified
properties are about:

* a component-path model of a filesystem together with the recursive
  `copy` function (0s.go lines 329-382) and the SFTP download functions
  `downloadFile` / `downloadDirectory` (lines 424-486);
* a model of the configuration store (`Config`, `Repository`,
  `loadConfig`, `saveConfig`, lines 19-120) and of the command dispatch
  (`main` at lines 34-83 and the per-command handlers).
-/

namespace ZeroS

/-- Filesystem paths, as lists of path components. -/
abbrev Path := List String

/-- A filesystem node: a directory, or a regular file with its byte content. -/
inductive Node where
  | dirN : Node
  | fileN : List Nat → Node
deriving DecidableEq, Repr

/-- A filesystem state: a finite association of paths to nodes. -/
abbrev FS := List (Path × Node)

/-- Association lookup of a path in a filesystem state. -/
def lookupFS : FS → Path → Option Node
  | [], _ => none
  | (k, v) :: t, p => if k = p then some v else lookupFS t p

/-- Insert or overwrite the node stored at a path. -/
def setFS : FS → Path → Node → FS
  | [], p, n => [(p, n)]
  | (k, v) :: t, p, n => if k = p then (p, n) :: t else (k, v) :: setFS t p n

/-- Predicate `Under p q`: `q` lies at or below `p`, i.e. `p` is a path
prefix of `q`. -/
def Under (p q : Path) : Prop := ∃ r, q = p ++ r

theorem under_refl (p : Path) : Under p p := ⟨[], by simp⟩

theorem under_append (p r : Path) : Under p (p ++ r) := ⟨r, rfl⟩

theorem under_trans {p q r : Path} (h1 : Under p q) (h2 : Under q r) : Under p r := by
  obtain ⟨a, ha⟩ := h1
  obtain ⟨b, hb⟩ := h2
  exact ⟨a ++ b, by simp [hb, ha]⟩

theorem under_length {p q : Path} (h : Under p q) : p.length ≤ q.length := by
  obtain ⟨a, ha⟩ := h
  simp [ha]

theorem under_antisymm {p q : Path} (h1 : Under p q) (h2 : Under q p) : p = q := by
  have l2 := under_length h2
  obtain ⟨a, ha⟩ := h1
  subst ha
  simp only [List.length_append] at l2
  have ha' : a = [] := List.eq_nil_of_length_eq_zero (by omega)
  simp [ha']

theorem under_nil_iff (d : Path) : Under d [] ↔ d = [] := by
  constructor
  · rintro ⟨r, hr⟩
    rcases List.append_eq_nil.mp hr.symm with ⟨h1, _⟩
    exact h1
  · rintro rfl; exact under_refl []

theorem under_cons_cancel {p : Path} {a b : String} {r : Path}
    (h : Under (p ++ [a]) (p ++ b :: r)) : a = b := by
  obtain ⟨s, hs⟩ := h
  rw [List.append_assoc] at hs
  have := List.append_cancel_left hs
  simp at this
  exact this.1.symm

theorem not_under_sibling {p : Path} {a b : String} {r : Path} (hab : a ≠ b) :
    ¬ Under (p ++ [a]) (p ++ b :: r) := fun h => hab (under_cons_cancel h)

theorem under_extend_cases {p q : Path} (h : Under p q) :
    q = p ∨ ∃ n r, q = p ++ n :: r := by
  obtain ⟨s, hs⟩ := h
  cases s with
  | nil => left; simp [hs]
  | cons n r => right; exact ⟨n, r, hs⟩

theorem ne_of_under_lt {p q : Path} (h : Under p q) {x : Path}
    (hlen : q.length < x.length) : x ≠ p := by
  intro hx
  subst hx
  have := under_length h
  omega

theorem lookup_setFS (fs : FS) (p q : Path) (n : Node) :
    lookupFS (setFS fs p n) q = if p = q then some n else lookupFS fs q := by
  induction fs with
  | nil => simp [setFS, lookupFS]
  | cons kv t ih =>
    obtain ⟨k, v⟩ := kv
    by_cases hkp : k = p
    · subst hkp
      by_cases hq : k = q
      · subst hq
        simp [setFS, lookupFS]
      · simp [setFS, lookupFS, hq]
    · by_cases hq : k = q
      · subst hq
        have hpk : ¬ p = k := fun h => hkp h.symm
        simp [setFS, lookupFS, hkp, hpk]
      · simp [setFS, lookupFS, hkp, hq, ih]

theorem lookup_setFS_isSome (fs : FS) (p q : Path) (n : Node)
    (h : (lookupFS fs q).isSome = true) :
    (lookupFS (setFS fs p n) q).isSome = true := by
  rw [lookup_setFS]
  by_cases hpq : p = q <;> simp [hpq, h]

/-- Whether `p` denotes an existing directory; the empty path plays the
role of the root directory, which always exists. -/
def dirExists (fs : FS) (p : Path) : Bool :=
  p.isEmpty || lookupFS fs p == some Node.dirN

/-- Walk the components of a path below `base`, creating each missing
directory, as Go's `os.MkdirAll` does; it fails when an element of the
path exists but is not a directory.  (On a well-formed filesystem Go's
`MkdirAll` creates nothing when it fails, which is how the failure case
is modelled here.) -/
def mkdirAlong (fs : FS) (base : Path) : List String → Option FS
  | [] => some fs
  | c :: rest =>
    match lookupFS fs (base ++ [c]) with
    | some (Node.fileN _) => none
    | some Node.dirN => mkdirAlong fs (base ++ [c]) rest
    | none => mkdirAlong (setFS fs (base ++ [c]) Node.dirN) (base ++ [c]) rest

/-- Model of `os.MkdirAll(p, mode)` (permission bits are not modelled). -/
def mkdirAll (fs : FS) (p : Path) : Option FS := mkdirAlong fs [] p

/-- Model of `os.Create`: truncates an existing regular file, fails when
the path is an existing directory or its parent directory is missing.
The created file is initially empty. -/
def createFile (fs : FS) (p : Path) : Option FS :=
  match p with
  | [] => none
  | _ :: _ =>
    if dirExists fs p.dropLast then
      match lookupFS fs p with
      | some Node.dirN => none
      | _ => some (setFS fs p (Node.fileN []))
    else none

theorem mkdirAlong_mono (cs : List String) (base : Path) (fs fs' : FS)
    (h : mkdirAlong fs base cs = some fs') (q : Path)
    (hq : (lookupFS fs q).isSome = true) : (lookupFS fs' q).isSome = true := by
  induction cs generalizing base fs with
  | nil =>
    simp only [mkdirAlong] at h
    cases h
    exact hq
  | cons c rest ih =>
    simp only [mkdirAlong] at h
    cases hl : lookupFS fs (base ++ [c]) with
    | none =>
      rw [hl] at h
      exact ih (base ++ [c]) _ h (lookup_setFS_isSome fs (base ++ [c]) q Node.dirN hq)
    | some nd =>
      cases nd with
      | dirN =>
        rw [hl] at h
        exact ih (base ++ [c]) fs h hq
      | fileN content =>
        rw [hl] at h
        cases h

theorem createFile_mono (fs fs' : FS) (p : Path)
    (h : createFile fs p = some fs') (q : Path)
    (hq : (lookupFS fs q).isSome = true) : (lookupFS fs' q).isSome = true := by
  unfold createFile at h
  cases p with
  | nil => cases h
  | cons a t =>
    by_cases hd : dirExists fs (List.dropLast (a :: t)) <;> simp [hd] at h
    cases hl : lookupFS fs (a :: t) with
    | none =>
      rw [hl] at h
      cases h
      exact lookup_setFS_isSome fs (a :: t) q _ hq
    | some nd =>
      cases nd with
      | dirN => rw [hl] at h; cases h
      | fileN content =>
        rw [hl] at h
        cases h
        exact lookup_setFS_isSome fs (a :: t) q _ hq

/-- When every proper ancestor of `base ++ cs` already exists as a
directory and the target itself is absent, `mkdirAlong` creates exactly
the target directory. -/
theorem mkdirAlong_ready (cs : List String) (base : Path) (fs : FS)
    (hcs : cs ≠ [])
    (hanc : ∀ d, Under d cs → d ≠ [] → d ≠ cs → lookupFS fs (base ++ d) = some Node.dirN)
    (hp : lookupFS fs (base ++ cs) = none) :
    ∃ fs1, mkdirAlong fs base cs = some fs1 ∧
      ∀ q, lookupFS fs1 q = if base ++ cs = q then some Node.dirN else lookupFS fs q := by
  induction cs generalizing base with
  | nil => exact absurd rfl hcs
  | cons c rest ih =>
    by_cases hrne : rest = []
    · subst hrne
      have hl : lookupFS fs (base ++ [c]) = none := hp
      refine ⟨setFS fs (base ++ [c]) Node.dirN, ?_, ?_⟩
      · simp only [mkdirAlong, hl]
      · intro q
        exact lookup_setFS fs (base ++ [c]) q Node.dirN
    · have hl : lookupFS fs (base ++ [c]) = some Node.dirN := by
        refine hanc [c] ⟨rest, rfl⟩ (by simp) ?_
        intro hc
        injection hc with h1 h2
        exact hrne h2.symm
      have step : mkdirAlong fs base (c :: rest) = mkdirAlong fs (base ++ [c]) rest := by
        simp only [mkdirAlong, hl]
      obtain ⟨fs1, hfs1, hspec⟩ := ih (base ++ [c]) hrne
        (fun d hd hdne hdrest => by
          have : base ++ [c] ++ d = base ++ (c :: d) := by simp
          rw [this]
          refine hanc (c :: d) ?_ (by simp) ?_
          · obtain ⟨s, hs⟩ := hd
            exact ⟨s, by simp [hs]⟩
          · intro hcd
            have hdr : d = rest := by injection hcd
            exact hdrest hdr)
        (by
          have : base ++ [c] ++ rest = base ++ (c :: rest) := by simp
          rw [this]; exact hp)
      refine ⟨fs1, by rw [step]; exact hfs1, ?_⟩
      intro q
      have : base ++ [c] ++ rest = base ++ (c :: rest) := by simp
      rw [this] at hspec
      exact hspec q

/-- On a filesystem with nothing at or below the walked components,
`mkdirAlong` creates exactly the nonempty prefixes of the target as
directories and touches nothing else. -/
theorem mkdirAlong_fresh (cs : List String) (base : Path) (fs : FS)
    (h : ∀ d, d ≠ [] → Under d cs → lookupFS fs (base ++ d) = none) :
    ∃ fs1, mkdirAlong fs base cs = some fs1 ∧
      (∀ d, d ≠ [] → Under d cs → lookupFS fs1 (base ++ d) = some Node.dirN) ∧
      (∀ q, (∀ d, d ≠ [] → Under d cs → q ≠ base ++ d) → lookupFS fs1 q = lookupFS fs q) := by
  induction cs generalizing base fs with
  | nil =>
    refine ⟨fs, by simp [mkdirAlong], ?_, ?_⟩
    · intro d hdne hd
      rw [under_nil_iff] at hd
      exact absurd hd hdne
    · intro q _
      rfl
  | cons c rest ih =>
    have hl : lookupFS fs (base ++ [c]) = none := h [c] (by simp) ⟨rest, rfl⟩
    have hstep : mkdirAlong fs base (c :: rest) =
        mkdirAlong (setFS fs (base ++ [c]) Node.dirN) (base ++ [c]) rest := by
      simp only [mkdirAlong, hl]
    set fs0 := setFS fs (base ++ [c]) Node.dirN with hfs0
    obtain ⟨fs1, hfs1, hcreate, hframe⟩ := ih (base ++ [c]) fs0
      (fun d hdne hd => by
        have hne : base ++ [c] ++ d ≠ base ++ [c] := by
          intro hx
          have := congrArg List.length hx
          simp at this
          exact hdne this
        rw [hfs0, lookup_setFS, if_neg (fun hx => hne hx.symm)]
        have heq : base ++ [c] ++ d = base ++ (c :: d) := by simp
        rw [heq]
        refine h (c :: d) (by simp) ?_
        obtain ⟨s, hs⟩ := hd
        exact ⟨s, by simp [hs]⟩)
    refine ⟨fs1, by rw [hstep]; exact hfs1, ?_, ?_⟩
    · intro d hdne hd
      obtain ⟨d', hd'⟩ : ∃ d', d = c :: d' ∧ Under d' rest := by
        obtain ⟨s, hs⟩ := hd
        cases d with
        | nil => exact absurd rfl hdne
        | cons x xs =>
          injection hs with h1 h2
          exact ⟨xs, by rw [h1], ⟨s, h2⟩⟩
      obtain ⟨hdc, hdrest⟩ := hd'
      subst hdc
      cases hd'' : decide (d' = []) with
      | true =>
        have hdnil : d' = [] := of_decide_eq_true hd''
        subst hdnil
        have hq : lookupFS fs1 (base ++ [c]) = lookupFS fs0 (base ++ [c]) := by
          refine hframe (base ++ [c]) ?_
          intro e hene hee hx
          have := congrArg List.length hx
          simp at this
          exact hene this
        rw [show base ++ [c] = base ++ [c] ++ ([] : Path) by simp] at hq ⊢
        rw [hq, hfs0]
        rw [show (base ++ [c] ++ ([] : Path)) = base ++ [c] by simp, lookup_setFS, if_pos rfl]
      | false =>
        have hdne' : d' ≠ [] := of_decide_eq_false hd''
        have := hcreate d' hdne' hdrest
        have heq : base ++ [c] ++ d' = base ++ (c :: d') := by simp
        rw [heq] at this
        exact this
    · intro q hq
      have h1 : lookupFS fs1 q = lookupFS fs0 q := by
        refine hframe q ?_
        intro d hdne hd
        have heq : base ++ [c] ++ d = base ++ (c :: d) := by simp
        rw [heq]
        refine hq (c :: d) (by simp) ?_
        obtain ⟨s, hs⟩ := hd
        exact ⟨s, by simp [hs]⟩
      have h2 : lookupFS fs0 q = lookupFS fs q := by
        rw [hfs0, lookup_setFS]
        have : q ≠ base ++ [c] := hq [c] (by simp) ⟨rest, rfl⟩
        rw [if_neg (fun hx => this hx.symm)]
      rw [h1, h2]

/-- Specification of `createFile` when the parent directory exists and
the target is absent. -/
theorem createFile_ready (fs : FS) (p : Path) (hne : p ≠ [])
    (hpar : dirExists fs p.dropLast = true)
    (hp : lookupFS fs p = none) :
    createFile fs p = some (setFS fs p (Node.fileN [])) := by
  cases p with
  | nil => exact absurd rfl hne
  | cons a t =>
    simp only [createFile, hpar, if_pos, hp]

/-! ## Source trees and the recursive copy (0s.go lines 329-382)

A source entry carries, besides its structure and file contents, flags
saying whether the individual system calls performed on it by `copy`
succeed: `os.Stat` on the entry, `os.Open`/`io.Copy` for files,
`ioutil.ReadDir` for directories.  A failing `io.Copy` leaves the
destination file as `os.Create` made it (`copy` has no rollback); the
partially written bytes are modelled as the empty content. -/

mutual
inductive Entry where
  | file : List Nat → Bool → Bool → Bool → Entry
  | dir : Bool → Bool → Entries → Entry
inductive Entries where
  | nil : Entries
  | cons : String → Entry → Entries → Entries
end

mutual
def goodE : Entry → Bool
  | .file _ statOk openOk copyOk => statOk && openOk && copyOk
  | .dir statOk readOk es => statOk && readOk && goodEs es
def goodEs : Entries → Bool
  | .nil => true
  | .cons _ e rest => goodE e && goodEs rest
end

/-- Whether a directory listing contains an entry with the given name. -/
def namesHas : Entries → String → Bool
  | .nil, _ => false
  | .cons n _ rest, m => n == m || namesHas rest m

mutual
def wfE : Entry → Bool
  | .file _ _ _ _ => true
  | .dir _ _ es => wfEs es
def wfEs : Entries → Bool
  | .nil => true
  | .cons n e rest => !namesHas rest n && wfE e && wfEs rest
end

def isDirE : Entry → Bool
  | .dir _ _ _ => true
  | .file _ _ _ _ => false

mutual
def treeLookup : Entry → Path → Option Node
  | .file c _ _ _, [] => some (Node.fileN c)
  | .file _ _ _ _, _ :: _ => none
  | .dir _ _ _, [] => some Node.dirN
  | .dir _ _ es, n :: r => entriesLookup es n r
def entriesLookup : Entries → String → Path → Option Node
  | .nil, _, _ => none
  | .cons n e rest, m, r => if n = m then treeLookup e r else entriesLookup rest m r
end

/-- Kinds of primitive operations performed by `copy`, in the order the
source performs them. -/
inductive OpK where
  | statK | mkdirK | readDirK | openK | createK | copyK
deriving DecidableEq, Repr

/-- A recorded primitive operation: its kind, the path it acted on, and
whether it succeeded. -/
structure Op where
  kind : OpK
  path : Path
  ok : Bool
deriving DecidableEq, Repr

/-- An error as `copy` returns it: the failing operation and its path. -/
abbrev CErr := OpK × Path

mutual
/-- Model of `copy(src, dest)` (0s.go lines 329-382).  It returns the
destination filesystem, the sequence of primitive operations performed,
and the error returned by the Go function (`none` on success).  The
structure follows the source: stat the source; for a directory,
`MkdirAll` the destination, read the source directory and recurse over
its entries, aborting on the first error; for a file, open the source,
create the destination and stream-copy the bytes. -/
def copy : Entry → Path → Path → FS → FS × List Op × Option CErr
  | .file content statOk openOk copyOk, src, dest, fs =>
    if statOk = false then
      (fs, [⟨.statK, src, false⟩], some (.statK, src))
    else
      if openOk = false then
        (fs, [⟨.statK, src, true⟩, ⟨.openK, src, false⟩], some (.openK, src))
      else
        match createFile fs dest with
        | none =>
          (fs, [⟨.statK, src, true⟩, ⟨.openK, src, true⟩, ⟨.createK, dest, false⟩],
            some (.createK, dest))
        | some fs1 =>
          if copyOk = false then
            (fs1, [⟨.statK, src, true⟩, ⟨.openK, src, true⟩, ⟨.createK, dest, true⟩,
              ⟨.copyK, dest, false⟩], some (.copyK, dest))
          else
            (setFS fs1 dest (Node.fileN content),
              [⟨.statK, src, true⟩, ⟨.openK, src, true⟩, ⟨.createK, dest, true⟩,
                ⟨.copyK, dest, true⟩], none)
  | .dir statOk readOk es, src, dest, fs =>
    if statOk = false then
      (fs, [⟨.statK, src, false⟩], some (.statK, src))
    else
      match mkdirAll fs dest with
      | none =>
        (fs, [⟨.statK, src, true⟩, ⟨.mkdirK, dest, false⟩], some (.mkdirK, dest))
      | some fs1 =>
        if readOk = false then
          (fs1, [⟨.statK, src, true⟩, ⟨.mkdirK, dest, true⟩, ⟨.readDirK, src, false⟩],
            some (.readDirK, src))
        else
          let r := copyChildren es src dest fs1
          (r.1, ⟨.statK, src, true⟩ :: ⟨.mkdirK, dest, true⟩ :: ⟨.readDirK, src, true⟩ :: r.2.1,
            r.2.2)
def copyChildren : Entries → Path → Path → FS → FS × List Op × Option CErr
  | .nil, _, _, fs => (fs, [], none)
  | .cons name e rest, src, dest, fs =>
    let r1 := copy e (src ++ [name]) (dest ++ [name]) fs
    match r1.2.2 with
    | some err => (r1.1, r1.2.1, some err)
    | none =>
      let r2 := copyChildren rest src dest r1.1
      (r2.1, r1.2.1 ++ r2.2.1, r2.2.2)
end

/-! ## SFTP download (0s.go lines 424-486) -/

/-- An item produced by `sftp.Walk`: the visited path relative to
`remotePath`, together with what the entry is. -/
abbrev WItem := Path × Node

mutual
/-- Pre-order walk of a remote tree, as `sftp.Walk` yields it: the root
itself first (relative path `[]`), then every descendant, each directory
before its contents. -/
def walkPre : Entry → List WItem
  | .file c _ _ _ => [([], Node.fileN c)]
  | .dir _ _ es => ([], Node.dirN) :: walkEntries es
def walkEntries : Entries → List WItem
  | .nil => []
  | .cons n e rest => (walkPre e).map (fun it => (n :: it.1, it.2)) ++ walkEntries rest
end

/-- Errors arising during a download. -/
inductive DErr where
  | mkdirE : Path → DErr
  | createE : Path → DErr
deriving DecidableEq, Repr

/-- Model of `downloadFile` (0s.go lines 424-447): create the local file
and stream the remote contents into it. -/
def downloadFile (fs : FS) (localPath : Path) (content : List Nat) : FS × Option DErr :=
  match createFile fs localPath with
  | none => (fs, some (.createE localPath))
  | some fs1 => (setFS fs1 localPath (Node.fileN content), none)

/-- The walk loop of `downloadDirectory` (0s.go lines 458-484): for each
visited item, skip the root (empty relative path), create a directory or
download a file at `localPath ++ rel`, aborting on the first error. -/
def dlLoop : List WItem → Path → FS → FS × Option DErr
  | [], _, fs => (fs, none)
  | (rel, nd) :: rest, localPath, fs =>
    if rel = [] then dlLoop rest localPath fs
    else
      match nd with
      | Node.dirN =>
        match mkdirAll fs (localPath ++ rel) with
        | none => (fs, some (.mkdirE (localPath ++ rel)))
        | some fs1 => dlLoop rest localPath fs1
      | Node.fileN c =>
        match (downloadFile fs (localPath ++ rel) c).2 with
        | none => dlLoop rest localPath (downloadFile fs (localPath ++ rel) c).1
        | some e => ((downloadFile fs (localPath ++ rel) c).1, some e)

/-- Model of `downloadDirectory` (0s.go lines 449-486): create
`localPath` unconditionally, then walk the remote tree. -/
def downloadDirectory (e : Entry) (localPath : Path) (fs : FS) : FS × Option DErr :=
  match mkdirAll fs localPath with
  | none => (fs, some (.mkdirE localPath))
  | some fs1 => dlLoop (walkPre e) localPath fs1

/-! ## Helper lemmas about paths, names and listings -/

theorem under_snoc {q p : Path} {n : String} (h : Under q (p ++ [n]))
    (hne : q ≠ p ++ [n]) : Under q p := by
  obtain ⟨s, hs⟩ := h
  rcases List.eq_nil_or_concat s with hsn | ⟨s', l, hsl⟩
  · subst hsn
    simp at hs
    exact absurd hs.symm hne
  · subst hsl
    rw [List.concat_eq_append, ← List.append_assoc] at hs
    have hlen : (q ++ s').length = p.length := by
      have := congrArg List.length hs
      simp at this
      simp
      omega
    obtain ⟨h1, _⟩ := List.append_inj hs.symm hlen
    exact ⟨s', h1.symm⟩

theorem under_singleton_cons {dest : Path} {n : String} {q : Path}
    (h : Under (dest ++ [n]) q) : ∃ s, q = dest ++ n :: s := by
  obtain ⟨s, hs⟩ := h
  exact ⟨s, by simp [hs]⟩

theorem not_under_of_short {p q : Path} (h : q.length < p.length) : ¬ Under p q :=
  fun hu => absurd (under_length hu) (by omega)

theorem append_cons_ne_self (dest : Path) (n : String) (r : Path) :
    dest ++ n :: r ≠ dest := by
  intro hx
  have := congrArg List.length hx
  simp at this

theorem namesHas_cons_iff (n : String) (e : Entry) (rest : Entries) (m : String) :
    namesHas (.cons n e rest) m = true ↔ n = m ∨ namesHas rest m = true := by
  simp [namesHas]

theorem entriesLookup_not_member : ∀ (es : Entries) (n : String) (r : Path),
    namesHas es n = false → entriesLookup es n r = none
  | .nil, _, _, _ => rfl
  | .cons m e rest, n, r, h => by
    simp only [namesHas, Bool.or_eq_false_iff] at h
    obtain ⟨h1, h2⟩ := h
    simp only [entriesLookup]
    rw [if_neg (by simpa using h1)]
    exact entriesLookup_not_member rest n r h2

/-! ## Clean-run correctness of `copy` (claim C2's engine) -/

mutual
theorem copy_ok (e : Entry) (src dest : Path) (fs : FS)
    (hg : goodE e = true) (hw : wfE e = true) (hne : dest ≠ [])
    (hanc : ∀ q, Under q dest → q ≠ [] → q ≠ dest → lookupFS fs q = some Node.dirN)
    (hemp : ∀ q, Under dest q → lookupFS fs q = none) :
    (copy e src dest fs).2.2 = none ∧
      (∀ r, lookupFS (copy e src dest fs).1 (dest ++ r) = treeLookup e r) ∧
      (∀ q, ¬ Under dest q → lookupFS (copy e src dest fs).1 q = lookupFS fs q) := by
  cases e with
  | file c so oo co =>
    simp only [goodE, Bool.and_eq_true] at hg
    obtain ⟨⟨hso, hoo⟩, hco⟩ := hg
    subst hso; subst hoo; subst hco
    have hpar : dirExists fs dest.dropLast = true := by
      by_cases hdl : dest.dropLast = []
      · simp [dirExists, hdl]
      · have hu : Under dest.dropLast dest :=
          ⟨[dest.getLast hne], (List.dropLast_append_getLast hne).symm⟩
        have hlt : dest.dropLast ≠ dest := by
          intro hx
          have hlen := congrArg List.length hx
          rw [List.length_dropLast] at hlen
          have h0 : dest.length ≠ 0 := by
            intro h0; exact hne (List.eq_nil_of_length_eq_zero h0)
          omega
        have hdir := hanc dest.dropLast hu hdl hlt
        simp [dirExists, hdir]
    have hcr : createFile fs dest = some (setFS fs dest (Node.fileN [])) :=
      createFile_ready fs dest hne hpar (hemp dest (under_refl dest))
    have hcomp : copy (.file c true true true) src dest fs =
        (setFS (setFS fs dest (Node.fileN [])) dest (Node.fileN c),
          [⟨.statK, src, true⟩, ⟨.openK, src, true⟩, ⟨.createK, dest, true⟩,
            ⟨.copyK, dest, true⟩], none) := by
      simp [copy, hcr]
    rw [hcomp]
    refine ⟨rfl, ?_, ?_⟩
    · intro r
      simp only []
      rw [lookup_setFS, lookup_setFS]
      cases r with
      | nil => simp [treeLookup]
      | cons x xs =>
        have hx : dest ≠ dest ++ x :: xs := by
          intro hx
          have := congrArg List.length hx
          simp at this
        rw [if_neg hx, if_neg hx]
        rw [hemp (dest ++ x :: xs) (under_append _ _)]
        simp [treeLookup]
    · intro q hq
      simp only []
      rw [lookup_setFS, lookup_setFS]
      have hx : dest ≠ q := fun hx => hq ⟨[], by rw [List.append_nil]; exact hx.symm⟩
      rw [if_neg hx, if_neg hx]
  | dir so ro es =>
    simp only [goodE, Bool.and_eq_true] at hg
    obtain ⟨⟨hso, hro⟩, hges⟩ := hg
    subst hso; subst hro
    simp only [wfE] at hw
    obtain ⟨fs1, hfs1, hspec1⟩ := by
      have h := mkdirAlong_ready dest [] fs hne
        (fun d hd hdne hddest => by simpa using hanc d hd hdne hddest)
        (by simpa using hemp dest (under_refl dest))
      simpa only [List.nil_append] using h
    have hanc1 : ∀ q, Under q dest → q ≠ [] → lookupFS fs1 q = some Node.dirN := by
      intro q hq hqne
      rw [hspec1 q]
      by_cases hqd : dest = q
      · rw [if_pos hqd]
      · rw [if_neg hqd]
        exact hanc q hq hqne (fun hx => hqd hx.symm)
    have hemp1 : ∀ n r, namesHas es n = true → lookupFS fs1 (dest ++ n :: r) = none := by
      intro n r _
      rw [hspec1]
      rw [if_neg (fun hx => append_cons_ne_self dest n r hx.symm)]
      exact hemp (dest ++ n :: r) (under_append _ _)
    obtain ⟨hnone, hmem, hframe⟩ := copyChildren_ok es src dest fs1 hges hw hanc1 hemp1
    have hcomp : copy (.dir true true es) src dest fs =
        ((copyChildren es src dest fs1).1,
          ⟨.statK, src, true⟩ :: ⟨.mkdirK, dest, true⟩ :: ⟨.readDirK, src, true⟩ ::
            (copyChildren es src dest fs1).2.1,
          (copyChildren es src dest fs1).2.2) := by
      simp [copy, mkdirAll] at hfs1 ⊢
      rw [hfs1]
    rw [hcomp]
    refine ⟨hnone, ?_, ?_⟩
    · intro r
      cases r with
      | nil =>
        simp only [List.append_nil, treeLookup]
        rw [hframe dest (fun n _ hu => by
          have := under_length hu
          simp at this)]
        rw [hspec1, if_pos rfl]
      | cons n rs =>
        simp only [treeLookup]
        by_cases hn : namesHas es n = true
        · exact hmem n rs hn
        · rw [hframe (dest ++ n :: rs) (fun m hm hu => by
            have hmn : m ≠ n := fun hx => hn (by rw [← hx]; exact hm)
            exact not_under_sibling hmn hu)]
          rw [hspec1, if_neg (fun hx => append_cons_ne_self dest n rs hx.symm)]
          rw [hemp (dest ++ n :: rs) (under_append _ _)]
          rw [entriesLookup_not_member es n rs (by simpa using hn)]
    · intro q hq
      rw [hframe q (fun m _ hu => hq (under_trans (under_append dest [m]) hu))]
      rw [hspec1, if_neg (fun hx => hq ⟨[], by rw [List.append_nil]; exact hx.symm⟩)]

theorem copyChildren_ok (es : Entries) (src dest : Path) (fs : FS)
    (hg : goodEs es = true) (hw : wfEs es = true)
    (hanc : ∀ q, Under q dest → q ≠ [] → lookupFS fs q = some Node.dirN)
    (hemp : ∀ n r, namesHas es n = true → lookupFS fs (dest ++ n :: r) = none) :
    (copyChildren es src dest fs).2.2 = none ∧
      (∀ n r, namesHas es n = true →
        lookupFS (copyChildren es src dest fs).1 (dest ++ n :: r) = entriesLookup es n r) ∧
      (∀ q, (∀ n, namesHas es n = true → ¬ Under (dest ++ [n]) q) →
        lookupFS (copyChildren es src dest fs).1 q = lookupFS fs q) := by
  cases es with
  | nil =>
    refine ⟨rfl, ?_, ?_⟩
    · intro n r h
      simp [namesHas] at h
    · intro q _
      rfl
  | cons name e rest =>
    simp only [goodEs, Bool.and_eq_true] at hg
    obtain ⟨hge, hgrest⟩ := hg
    simp only [wfEs, Bool.and_eq_true, Bool.not_eq_true'] at hw
    obtain ⟨⟨hnodup, hwe⟩, hwrest⟩ := hw
    have hanc' : ∀ q, Under q (dest ++ [name]) → q ≠ [] → q ≠ dest ++ [name] →
        lookupFS fs q = some Node.dirN := by
      intro q hq hqne hqfull
      exact hanc q (under_snoc hq hqfull) hqne
    have hemp' : ∀ q, Under (dest ++ [name]) q → lookupFS fs q = none := by
      intro q hq
      obtain ⟨s, hs⟩ := under_singleton_cons hq
      subst hs
      exact hemp name s (by simp [namesHas])
    obtain ⟨hnone1, hlook1, hframe1⟩ :=
      copy_ok e (src ++ [name]) (dest ++ [name]) fs hge hwe (by simp) hanc' hemp'
    have hanc2 : ∀ q, Under q dest → q ≠ [] →
        lookupFS (copy e (src ++ [name]) (dest ++ [name]) fs).1 q = some Node.dirN := by
      intro q hq hqne
      rw [hframe1 q (not_under_of_short (by
        have := under_length hq
        simp
        omega))]
      exact hanc q hq hqne
    have hemp2 : ∀ n r, namesHas rest n = true →
        lookupFS (copy e (src ++ [name]) (dest ++ [name]) fs).1 (dest ++ n :: r) = none := by
      intro n r hn
      have hnn : name ≠ n := by
        intro hx
        rw [hx] at hnodup
        rw [hn] at hnodup
        cases hnodup
      rw [hframe1 (dest ++ n :: r) (not_under_sibling hnn)]
      exact hemp n r (by simp [namesHas, hn])
    obtain ⟨hnone2, hmem2, hframe2⟩ :=
      copyChildren_ok rest src dest (copy e (src ++ [name]) (dest ++ [name]) fs).1
        hgrest hwrest hanc2 hemp2
    have hcomp : copyChildren (.cons name e rest) src dest fs =
        ((copyChildren rest src dest (copy e (src ++ [name]) (dest ++ [name]) fs).1).1,
          (copy e (src ++ [name]) (dest ++ [name]) fs).2.1 ++
            (copyChildren rest src dest (copy e (src ++ [name]) (dest ++ [name]) fs).1).2.1,
          (copyChildren rest src dest (copy e (src ++ [name]) (dest ++ [name]) fs).1).2.2) := by
      simp only [copyChildren]
      rw [hnone1]
    rw [hcomp]
    refine ⟨hnone2, ?_, ?_⟩
    · intro n r hn
      by_cases hx : name = n
      · subst hx
        have hlk : lookupFS (copyChildren rest src dest
            (copy e (src ++ [name]) (dest ++ [name]) fs).1).1 (dest ++ name :: r) =
            lookupFS (copy e (src ++ [name]) (dest ++ [name]) fs).1 (dest ++ name :: r) := by
          refine hframe2 (dest ++ name :: r) ?_
          intro m hm hu
          have hmn : m ≠ name := by
            intro hx
            rw [hx] at hm
            rw [hm] at hnodup
            cases hnodup
          exact not_under_sibling hmn hu
        rw [hlk]
        have := hlook1 r
        rw [show dest ++ [name] ++ r = dest ++ name :: r by simp] at this
        rw [this]
        simp [entriesLookup]
      · have hnr : namesHas rest n = true := by
          rcases (namesHas_cons_iff name e rest n).mp hn with h | h
          · exact absurd h hx
          · exact h
        rw [hmem2 n r hnr]
        simp [entriesLookup, hx]
    · intro q hq
      rw [hframe2 q (fun m hm hu => hq m (by simp [namesHas, hm]) hu)]
      exact hframe1 q (hq name (by simp [namesHas]))
end

end ZeroS

namespace ZeroS

/-- C2: for every source directory `D` and empty destination `E`,
`copy(D, E)` succeeds and afterwards `E` contains exactly the entry set
of `D`, with each regular file under `E` byte-for-byte identical to the
corresponding file under `D`, recursing into subdirectories.  The
hypotheses say that the source is a well-formed directory (distinct
entry names) on which no I/O operation fails, and that the destination
filesystem is empty. -/
theorem copy_clean_destination (e : Entry) (src dest : Path)
    (hg : goodE e = true) (hw : wfE e = true) (hd : isDirE e = true) (hne : dest ≠ []) :
    (copy e src dest []).2.2 = none ∧
      ∀ r, lookupFS (copy e src dest []).1 (dest ++ r) = treeLookup e r := by
  cases e with
  | file c so oo co => simp [isDirE] at hd
  | dir so ro es =>
    simp only [goodE, Bool.and_eq_true] at hg
    obtain ⟨⟨hso, hro⟩, hges⟩ := hg
    subst hso; subst hro
    simp only [wfE] at hw
    obtain ⟨fs1, hfs1, hcreate, hframe0⟩ := by
      have h := mkdirAlong_fresh dest [] [] (fun d hdne hd' => rfl)
      simpa only [List.nil_append] using h
    have hanc1 : ∀ q, Under q dest → q ≠ [] → lookupFS fs1 q = some Node.dirN :=
      fun q hq hqne => hcreate q hqne hq
    have hemp1 : ∀ n r, namesHas es n = true → lookupFS fs1 (dest ++ n :: r) = none := by
      intro n r _
      rw [hframe0 (dest ++ n :: r) (fun d _ hd' => by
        have hdl := under_length hd'
        intro hx
        have := congrArg List.length hx
        simp at this
        omega)]
      rfl
    obtain ⟨hnone, hmem, hframe⟩ := copyChildren_ok es src dest fs1 hges hw hanc1 hemp1
    have hcomp : copy (.dir true true es) src dest [] =
        ((copyChildren es src dest fs1).1,
          ⟨.statK, src, true⟩ :: ⟨.mkdirK, dest, true⟩ :: ⟨.readDirK, src, true⟩ ::
            (copyChildren es src dest fs1).2.1,
          (copyChildren es src dest fs1).2.2) := by
      simp [copy, mkdirAll] at hfs1 ⊢
      rw [hfs1]
    rw [hcomp]
    refine ⟨hnone, ?_⟩
    intro r
    cases r with
    | nil =>
      simp only [List.append_nil, treeLookup]
      rw [hframe dest (fun n _ hu => by
        have := under_length hu
        simp at this)]
      exact hcreate dest hne (under_refl dest)
    | cons n rs =>
      simp only [treeLookup]
      by_cases hn : namesHas es n = true
      · exact hmem n rs hn
      · rw [hframe (dest ++ n :: rs) (fun m hm hu => by
          have hmn : m ≠ n := fun hx => hn (by rw [← hx]; exact hm)
          exact not_under_sibling hmn hu)]
        rw [hframe0 (dest ++ n :: rs) (fun d _ hd' => by
          have hdl := under_length hd'
          intro hx
          have := congrArg List.length hx
          simp at this
          omega)]
        rw [entriesLookup_not_member es n rs (by simpa using hn)]
        rfl

/-- Sample source directory used by the witnesses: a file `a.txt` and a
subdirectory `sub` containing `b.txt`. -/
def sampleTree : Entry :=
  .dir true true (.cons "a.txt" (.file [104, 105] true true true)
    (.cons "sub" (.dir true true (.cons "b.txt" (.file [1, 2, 3] true true true) .nil)) .nil))

theorem copy_clean_destination_witness :
    goodE sampleTree = true ∧ wfE sampleTree = true ∧ isDirE sampleTree = true ∧
      (["d"] : Path) ≠ [] ∧
      ((copy sampleTree ["s"] ["d"] []).2.2 = none ∧
        ∀ r, lookupFS (copy sampleTree ["s"] ["d"] []).1 (["d"] ++ r) = treeLookup sampleTree r) :=
  ⟨rfl, rfl, rfl, by decide,
    copy_clean_destination sampleTree ["s"] ["d"] rfl rfl rfl (by decide)⟩

end ZeroS

namespace ZeroS

/-- All recorded operations succeeded. -/
def allOk (tr : List Op) : Bool := tr.all (fun o => o.ok)

mutual
theorem copy_mono_err (e : Entry) (src dest : Path) (fs : FS) :
    (∀ q, (lookupFS fs q).isSome = true → (lookupFS (copy e src dest fs).1 q).isSome = true) ∧
      ((copy e src dest fs).2.2 = none → allOk (copy e src dest fs).2.1 = true) ∧
      (∀ err, (copy e src dest fs).2.2 = some err →
        ∃ tr0, (copy e src dest fs).2.1 = tr0 ++ [⟨err.1, err.2, false⟩] ∧ allOk tr0 = true) := by
  cases e with
  | file c so oo co =>
    cases so with
    | false =>
      have hcomp : copy (.file c false oo co) src dest fs =
          (fs, [⟨.statK, src, false⟩], some (.statK, src)) := by simp [copy]
      rw [hcomp]
      refine ⟨fun q hq => hq, fun h => Option.noConfusion h, ?_⟩
      intro err herr
      injection herr with herr'
      subst herr'
      exact ⟨[], rfl, rfl⟩
    | true =>
      cases oo with
      | false =>
        have hcomp : copy (.file c true false co) src dest fs =
            (fs, [⟨.statK, src, true⟩, ⟨.openK, src, false⟩], some (.openK, src)) := by
          simp [copy]
        rw [hcomp]
        refine ⟨fun q hq => hq, fun h => Option.noConfusion h, ?_⟩
        intro err herr
        injection herr with herr'
        subst herr'
        exact ⟨[⟨.statK, src, true⟩], rfl, rfl⟩
      | true =>
        cases hcf : createFile fs dest with
        | none =>
          have hcomp : copy (.file c true true co) src dest fs =
              (fs, [⟨.statK, src, true⟩, ⟨.openK, src, true⟩, ⟨.createK, dest, false⟩],
                some (.createK, dest)) := by
            simp [copy, hcf]
          rw [hcomp]
          refine ⟨fun q hq => hq, fun h => Option.noConfusion h, ?_⟩
          intro err herr
          injection herr with herr'
          subst herr'
          exact ⟨[⟨.statK, src, true⟩, ⟨.openK, src, true⟩], rfl, rfl⟩
        | some fs1 =>
          cases co with
          | false =>
            have hcomp : copy (.file c true true false) src dest fs =
                (fs1, [⟨.statK, src, true⟩, ⟨.openK, src, true⟩, ⟨.createK, dest, true⟩,
                  ⟨.copyK, dest, false⟩], some (.copyK, dest)) := by
              simp [copy, hcf]
            rw [hcomp]
            refine ⟨fun q hq => createFile_mono fs fs1 dest hcf q hq, fun h => Option.noConfusion h, ?_⟩
            intro err herr
            injection herr with herr'
            subst herr'
            exact ⟨[⟨.statK, src, true⟩, ⟨.openK, src, true⟩, ⟨.createK, dest, true⟩], rfl, rfl⟩
          | true =>
            have hcomp : copy (.file c true true true) src dest fs =
                (setFS fs1 dest (Node.fileN c),
                  [⟨.statK, src, true⟩, ⟨.openK, src, true⟩, ⟨.createK, dest, true⟩,
                    ⟨.copyK, dest, true⟩], none) := by
              simp [copy, hcf]
            rw [hcomp]
            refine ⟨?_, fun _ => rfl, fun err herr => Option.noConfusion herr⟩
            intro q hq
            exact lookup_setFS_isSome fs1 dest q _ (createFile_mono fs fs1 dest hcf q hq)
  | dir so ro es =>
    cases so with
    | false =>
      have hcomp : copy (.dir false ro es) src dest fs =
          (fs, [⟨.statK, src, false⟩], some (.statK, src)) := by simp [copy]
      rw [hcomp]
      refine ⟨fun q hq => hq, fun h => Option.noConfusion h, ?_⟩
      intro err herr
      injection herr with herr'
      subst herr'
      exact ⟨[], rfl, rfl⟩
    | true =>
      cases hmk : mkdirAll fs dest with
      | none =>
        have hcomp : copy (.dir true ro es) src dest fs =
            (fs, [⟨.statK, src, true⟩, ⟨.mkdirK, dest, false⟩], some (.mkdirK, dest)) := by
          simp [copy, hmk]
        rw [hcomp]
        refine ⟨fun q hq => hq, fun h => Option.noConfusion h, ?_⟩
        intro err herr
        injection herr with herr'
        subst herr'
        exact ⟨[⟨.statK, src, true⟩], rfl, rfl⟩
      | some fs1 =>
        cases ro with
        | false =>
          have hcomp : copy (.dir true false es) src dest fs =
              (fs1, [⟨.statK, src, true⟩, ⟨.mkdirK, dest, true⟩, ⟨.readDirK, src, false⟩],
                some (.readDirK, src)) := by
            simp [copy, hmk]
          rw [hcomp]
          refine ⟨fun q hq => mkdirAlong_mono dest [] fs fs1 hmk q hq, fun h => Option.noConfusion h, ?_⟩
          intro err herr
          injection herr with herr'
          subst herr'
          exact ⟨[⟨.statK, src, true⟩, ⟨.mkdirK, dest, true⟩], rfl, rfl⟩
        | true =>
          have hcomp : copy (.dir true true es) src dest fs =
              ((copyChildren es src dest fs1).1,
                ⟨.statK, src, true⟩ :: ⟨.mkdirK, dest, true⟩ :: ⟨.readDirK, src, true⟩ ::
                  (copyChildren es src dest fs1).2.1,
                (copyChildren es src dest fs1).2.2) := by
            simp [copy, hmk]
          obtain ⟨ihmono, ihnone, ihsome⟩ := copyChildren_mono_err es src dest fs1
          rw [hcomp]
          refine ⟨fun q hq => ihmono q (mkdirAlong_mono dest [] fs fs1 hmk q hq), ?_, ?_⟩
          · intro h
            have htr := ihnone h
            simp [allOk] at htr ⊢
            exact htr
          · intro err herr
            obtain ⟨tr0, htr, hok⟩ := ihsome err herr
            refine ⟨⟨.statK, src, true⟩ :: ⟨.mkdirK, dest, true⟩ :: ⟨.readDirK, src, true⟩ :: tr0,
              ?_, ?_⟩
            · rw [htr]
              simp
            · simp [allOk] at hok ⊢
              exact hok

theorem copyChildren_mono_err (es : Entries) (src dest : Path) (fs : FS) :
    (∀ q, (lookupFS fs q).isSome = true →
        (lookupFS (copyChildren es src dest fs).1 q).isSome = true) ∧
      ((copyChildren es src dest fs).2.2 = none → allOk (copyChildren es src dest fs).2.1 = true) ∧
      (∀ err, (copyChildren es src dest fs).2.2 = some err →
        ∃ tr0, (copyChildren es src dest fs).2.1 = tr0 ++ [⟨err.1, err.2, false⟩] ∧
          allOk tr0 = true) := by
  cases es with
  | nil =>
    refine ⟨fun q hq => hq, fun _ => rfl, fun err herr => Option.noConfusion herr⟩
  | cons name e rest =>
    obtain ⟨m1, n1, s1⟩ := copy_mono_err e (src ++ [name]) (dest ++ [name]) fs
    cases h1 : (copy e (src ++ [name]) (dest ++ [name]) fs).2.2 with
    | some err1 =>
      have hcomp : copyChildren (.cons name e rest) src dest fs =
          ((copy e (src ++ [name]) (dest ++ [name]) fs).1,
            (copy e (src ++ [name]) (dest ++ [name]) fs).2.1, some err1) := by
        simp only [copyChildren]
        rw [h1]
      rw [hcomp]
      refine ⟨m1, fun h => Option.noConfusion h, ?_⟩
      intro err herr
      injection herr with herr'
      subst herr'
      exact s1 err1 h1
    | none =>
      obtain ⟨m2, n2, s2⟩ :=
        copyChildren_mono_err rest src dest (copy e (src ++ [name]) (dest ++ [name]) fs).1
      have hcomp : copyChildren (.cons name e rest) src dest fs =
          ((copyChildren rest src dest (copy e (src ++ [name]) (dest ++ [name]) fs).1).1,
            (copy e (src ++ [name]) (dest ++ [name]) fs).2.1 ++
              (copyChildren rest src dest (copy e (src ++ [name]) (dest ++ [name]) fs).1).2.1,
            (copyChildren rest src dest (copy e (src ++ [name]) (dest ++ [name]) fs).1).2.2) := by
        simp only [copyChildren]
        rw [h1]
      rw [hcomp]
      have hall1 : allOk (copy e (src ++ [name]) (dest ++ [name]) fs).2.1 = true := n1 h1
      refine ⟨fun q hq => m2 q (m1 q hq), ?_, ?_⟩
      · intro h
        have h2 := n2 h
        simp [allOk, List.all_append] at hall1 h2 ⊢
        exact ⟨hall1, h2⟩
      · intro err herr
        obtain ⟨tr0, htr, hok⟩ := s2 err herr
        refine ⟨(copy e (src ++ [name]) (dest ++ [name]) fs).2.1 ++ tr0, ?_, ?_⟩
        · rw [htr, List.append_assoc]
        · simp [allOk, List.all_append] at hall1 hok ⊢
          exact ⟨hall1, hok⟩
end

/-- C3: if any stat, open, create, directory-read or stream-copy step
inside `copy` fails, `copy` returns that step's error immediately: the
failing operation is the last one in the recorded trace, every earlier
operation succeeded and nothing after it was attempted, and no entry
already present in the destination filesystem is removed (no rollback,
no partial-success report). -/
theorem copy_error_propagation (e : Entry) (src dest : Path) (fs : FS) (err : CErr)
    (h : (copy e src dest fs).2.2 = some err) :
    (∀ q, (lookupFS fs q).isSome = true → (lookupFS (copy e src dest fs).1 q).isSome = true) ∧
      ∃ tr0, (copy e src dest fs).2.1 = tr0 ++ [⟨err.1, err.2, false⟩] ∧ allOk tr0 = true :=
  ⟨(copy_mono_err e src dest fs).1, (copy_mono_err e src dest fs).2.2 err h⟩

/-- Sample source tree whose second entry fails to open, used by the
C3 witness. -/
def failTree : Entry :=
  .dir true true (.cons "a" (.file [1] true true true)
    (.cons "b" (.file [2] true false true)
      (.cons "c" (.file [3] true true true) .nil)))

theorem copy_error_propagation_witness :
    (copy failTree ["s"] ["d"] []).2.2 = some (.openK, ["s", "b"]) ∧
      ((∀ q, (lookupFS ([] : FS) q).isSome = true →
          (lookupFS (copy failTree ["s"] ["d"] []).1 q).isSome = true) ∧
        ∃ tr0, (copy failTree ["s"] ["d"] []).2.1 = tr0 ++ [⟨OpK.openK, ["s", "b"], false⟩] ∧
          allOk tr0 = true) :=
  ⟨rfl, copy_error_propagation failTree ["s"] ["d"] [] (.openK, ["s", "b"]) rfl⟩

end ZeroS

namespace ZeroS

theorem dlLoop_append (l1 l2 : List WItem) (lp : Path) (fs : FS) :
    dlLoop (l1 ++ l2) lp fs =
      match dlLoop l1 lp fs with
      | (fs1, none) => dlLoop l2 lp fs1
      | (fs1, some e) => (fs1, some e) := by
  induction l1 generalizing fs with
  | nil => simp [dlLoop]
  | cons it rest ih =>
    obtain ⟨rel, nd⟩ := it
    by_cases hrel : rel = []
    · simp only [List.cons_append, dlLoop, if_pos hrel]
      exact ih fs
    · cases nd with
      | dirN =>
        simp only [List.cons_append, dlLoop, if_neg hrel]
        cases hmk : mkdirAll fs (lp ++ rel) with
        | none => rfl
        | some fs1 => exact ih fs1
      | fileN c =>
        simp only [List.cons_append, dlLoop, if_neg hrel]
        cases hdf : (downloadFile fs (lp ++ rel) c).2 with
        | none => exact ih _
        | some e => rfl

theorem map_ppre_nil (l : List WItem) :
    l.map (fun it => (([] : Path) ++ it.1, it.2)) = l := by
  induction l with
  | nil => rfl
  | cons it rest ih =>
    rw [List.map_cons, ih]
    rfl

theorem map_ppre_comp (l : List WItem) (p : Path) (n : String) :
    (l.map (fun it => (n :: it.1, it.2))).map (fun it => (p ++ it.1, it.2)) =
      l.map (fun it => ((p ++ [n]) ++ it.1, it.2)) := by
  induction l with
  | nil => rfl
  | cons it rest ih =>
    rw [List.map_cons, List.map_cons, List.map_cons, ih]
    have hap : p ++ n :: it.1 = (p ++ [n]) ++ it.1 := by
      rw [List.append_cons]
    rw [hap]

mutual
theorem dl_entry_ok (e : Entry) (p localPath : Path) (fs : FS)
    (hw : wfE e = true) (hp : p ≠ [])
    (hanc : ∀ q, Under q (localPath ++ p) → q ≠ [] → q ≠ localPath ++ p →
      lookupFS fs q = some Node.dirN)
    (hemp : ∀ q, Under (localPath ++ p) q → lookupFS fs q = none) :
    (dlLoop ((walkPre e).map (fun it => (p ++ it.1, it.2))) localPath fs).2 = none ∧
      (∀ r, lookupFS (dlLoop ((walkPre e).map (fun it => (p ++ it.1, it.2))) localPath fs).1
        (localPath ++ p ++ r) = treeLookup e r) ∧
      (∀ q, ¬ Under (localPath ++ p) q →
        lookupFS (dlLoop ((walkPre e).map (fun it => (p ++ it.1, it.2))) localPath fs).1 q =
          lookupFS fs q) := by
  cases e with
  | file c so oo co =>
    have hne : localPath ++ p ≠ [] := by
      intro hx
      rcases List.append_eq_nil.mp hx with ⟨_, h2⟩
      exact hp h2
    have hpar : dirExists fs (localPath ++ p).dropLast = true := by
      by_cases hdl : (localPath ++ p).dropLast = []
      · simp [dirExists, hdl]
      · have hu : Under (localPath ++ p).dropLast (localPath ++ p) :=
          ⟨[(localPath ++ p).getLast hne], (List.dropLast_append_getLast hne).symm⟩
        have hlt : (localPath ++ p).dropLast ≠ localPath ++ p := by
          intro hx
          have hlen := congrArg List.length hx
          rw [List.length_dropLast] at hlen
          have h0 : (localPath ++ p).length ≠ 0 := by
            intro h0; exact hne (List.eq_nil_of_length_eq_zero h0)
          omega
        have hdir := hanc (localPath ++ p).dropLast hu hdl hlt
        simp [dirExists, hdir]
    have hcr : createFile fs (localPath ++ p) =
        some (setFS fs (localPath ++ p) (Node.fileN [])) :=
      createFile_ready fs (localPath ++ p) hne hpar
        (hemp (localPath ++ p) (under_refl _))
    have hcomp : dlLoop ((walkPre (.file c so oo co)).map (fun it => (p ++ it.1, it.2)))
        localPath fs =
        (setFS (setFS fs (localPath ++ p) (Node.fileN [])) (localPath ++ p) (Node.fileN c),
          none) := by
      simp only [walkPre, List.map_cons, List.map_nil, List.append_nil, dlLoop, if_neg hp,
        downloadFile, hcr]
    rw [hcomp]
    refine ⟨rfl, ?_, ?_⟩
    · intro r
      rw [lookup_setFS, lookup_setFS]
      cases r with
      | nil => simp [treeLookup]
      | cons x xs =>
        have hx : localPath ++ p ≠ localPath ++ p ++ x :: xs := by
          intro hx
          have := congrArg List.length hx
          simp at this
        rw [if_neg hx, if_neg hx]
        rw [hemp (localPath ++ p ++ x :: xs) (under_append _ _)]
        simp [treeLookup]
    · intro q hq
      rw [lookup_setFS, lookup_setFS]
      have hx : localPath ++ p ≠ q :=
        fun hx => hq ⟨[], by rw [List.append_nil]; exact hx.symm⟩
      rw [if_neg hx, if_neg hx]
  | dir so ro es =>
    simp only [wfE] at hw
    obtain ⟨fs1, hfs1, hspec1⟩ := by
      have h := mkdirAlong_ready (localPath ++ p) [] fs
        (by
          intro hx
          rcases List.append_eq_nil.mp hx with ⟨_, h2⟩
          exact hp h2)
        (fun d hd hdne hddest => by simpa using hanc d hd hdne hddest)
        (by simpa using hemp (localPath ++ p) (under_refl _))
      simpa only [List.nil_append] using h
    have hanc1 : ∀ q, Under q (localPath ++ p) → q ≠ [] → lookupFS fs1 q = some Node.dirN := by
      intro q hq hqne
      rw [hspec1 q]
      by_cases hqd : localPath ++ p = q
      · rw [if_pos hqd]
      · rw [if_neg hqd]
        exact hanc q hq hqne (fun hx => hqd hx.symm)
    have hemp1 : ∀ n r, namesHas es n = true →
        lookupFS fs1 (localPath ++ p ++ n :: r) = none := by
      intro n r _
      rw [hspec1]
      rw [if_neg (fun hx => append_cons_ne_self (localPath ++ p) n r hx.symm)]
      exact hemp (localPath ++ p ++ n :: r) (by
        obtain ⟨s, hs⟩ := under_append (localPath ++ p) (n :: r)
        exact ⟨n :: r, rfl⟩)
    obtain ⟨hnone, hmem, hframe⟩ := dl_children_ok es p localPath fs1 hw hanc1 hemp1
    have hcomp : dlLoop ((walkPre (.dir so ro es)).map (fun it => (p ++ it.1, it.2)))
        localPath fs =
        dlLoop ((walkEntries es).map (fun it => (p ++ it.1, it.2))) localPath fs1 := by
      simp only [walkPre, List.map_cons, List.append_nil, dlLoop, if_neg hp, mkdirAll]
      rw [hfs1]
    rw [hcomp]
    refine ⟨hnone, ?_, ?_⟩
    · intro r
      cases r with
      | nil =>
        simp only [List.append_nil, treeLookup]
        rw [hframe (localPath ++ p) (fun n _ hu => by
          have := under_length hu
          simp at this)]
        rw [hspec1, if_pos rfl]
      | cons n rs =>
        simp only [treeLookup]
        by_cases hn : namesHas es n = true
        · exact hmem n rs hn
        · rw [hframe (localPath ++ p ++ n :: rs) (fun m hm hu => by
            have hmn : m ≠ n := fun hx => hn (by rw [← hx]; exact hm)
            exact not_under_sibling hmn hu)]
          rw [hspec1, if_neg (fun hx => append_cons_ne_self (localPath ++ p) n rs hx.symm)]
          rw [hemp (localPath ++ p ++ n :: rs) ⟨n :: rs, rfl⟩]
          rw [entriesLookup_not_member es n rs (by simpa using hn)]
    · intro q hq
      rw [hframe q (fun m _ hu => hq (under_trans (under_append (localPath ++ p) [m]) hu))]
      rw [hspec1, if_neg (fun hx => hq ⟨[], by rw [List.append_nil]; exact hx.symm⟩)]

theorem dl_children_ok (es : Entries) (p localPath : Path) (fs : FS)
    (hw : wfEs es = true)
    (hanc : ∀ q, Under q (localPath ++ p) → q ≠ [] → lookupFS fs q = some Node.dirN)
    (hemp : ∀ n r, namesHas es n = true → lookupFS fs (localPath ++ p ++ n :: r) = none) :
    (dlLoop ((walkEntries es).map (fun it => (p ++ it.1, it.2))) localPath fs).2 = none ∧
      (∀ n r, namesHas es n = true →
        lookupFS (dlLoop ((walkEntries es).map (fun it => (p ++ it.1, it.2))) localPath fs).1
          (localPath ++ p ++ n :: r) = entriesLookup es n r) ∧
      (∀ q, (∀ n, namesHas es n = true → ¬ Under (localPath ++ p ++ [n]) q) →
        lookupFS (dlLoop ((walkEntries es).map (fun it => (p ++ it.1, it.2))) localPath fs).1 q =
          lookupFS fs q) := by
  cases es with
  | nil =>
    refine ⟨rfl, ?_, ?_⟩
    · intro n r h
      simp [namesHas] at h
    · intro q _
      rfl
  | cons nm e rest =>
    simp only [wfEs, Bool.and_eq_true, Bool.not_eq_true'] at hw
    obtain ⟨⟨hnodup, hwe⟩, hwrest⟩ := hw
    have hsplit : (walkEntries (.cons nm e rest)).map (fun it => (p ++ it.1, it.2)) =
        (walkPre e).map (fun it => ((p ++ [nm]) ++ it.1, it.2)) ++
          (walkEntries rest).map (fun it => (p ++ it.1, it.2)) := by
      simp only [walkEntries, List.map_append, map_ppre_comp]
    have hanc' : ∀ q, Under q (localPath ++ (p ++ [nm])) → q ≠ [] →
        q ≠ localPath ++ (p ++ [nm]) → lookupFS fs q = some Node.dirN := by
      intro q hq hqne hqfull
      rw [← List.append_assoc] at hq hqfull
      exact hanc q (under_snoc hq hqfull) hqne
    have hemp' : ∀ q, Under (localPath ++ (p ++ [nm])) q → lookupFS fs q = none := by
      intro q hq
      rw [← List.append_assoc] at hq
      obtain ⟨s, hs⟩ := under_singleton_cons hq
      subst hs
      exact hemp nm s (by simp [namesHas])
    obtain ⟨hnone1, hlook1, hframe1⟩ :=
      dl_entry_ok e (p ++ [nm]) localPath fs hwe (by simp) hanc' hemp'
    set fsA := (dlLoop ((walkPre e).map (fun it => ((p ++ [nm]) ++ it.1, it.2))) localPath fs).1
      with hfsA
    have hanc2 : ∀ q, Under q (localPath ++ p) → q ≠ [] → lookupFS fsA q = some Node.dirN := by
      intro q hq hqne
      rw [hfsA, hframe1 q (by
        rw [← List.append_assoc]
        refine not_under_of_short ?_
        have := under_length hq
        simp only [List.length_append, List.length_cons, List.length_nil] at this ⊢
        omega)]
      exact hanc q hq hqne
    have hemp2 : ∀ n r, namesHas rest n = true →
        lookupFS fsA (localPath ++ p ++ n :: r) = none := by
      intro n r hn
      have hnn : nm ≠ n := by
        intro hx
        rw [hx] at hnodup
        rw [hn] at hnodup
        cases hnodup
      rw [hfsA, hframe1 (localPath ++ p ++ n :: r) (by
        rw [← List.append_assoc]
        exact not_under_sibling hnn)]
      exact hemp n r (by simp [namesHas, hn])
    obtain ⟨hnone2, hmem2, hframe2⟩ := dl_children_ok rest p localPath fsA hwrest hanc2 hemp2
    have hcomp : dlLoop ((walkEntries (.cons nm e rest)).map (fun it => (p ++ it.1, it.2)))
        localPath fs =
        dlLoop ((walkEntries rest).map (fun it => (p ++ it.1, it.2))) localPath fsA := by
      rw [hsplit, dlLoop_append]
      have h1 : dlLoop ((walkPre e).map (fun it => ((p ++ [nm]) ++ it.1, it.2))) localPath fs =
          (fsA, none) := by
        rw [hfsA]
        exact Prod.ext rfl hnone1
      rw [h1]
    rw [hcomp]
    refine ⟨hnone2, ?_, ?_⟩
    · intro n r hn
      by_cases hx : nm = n
      · subst hx
        have hlk : lookupFS (dlLoop ((walkEntries rest).map (fun it => (p ++ it.1, it.2)))
            localPath fsA).1 (localPath ++ p ++ nm :: r) =
            lookupFS fsA (localPath ++ p ++ nm :: r) := by
          refine hframe2 (localPath ++ p ++ nm :: r) ?_
          intro m hm hu
          have hmn : m ≠ nm := by
            intro hxx
            rw [hxx] at hm
            rw [hm] at hnodup
            cases hnodup
          exact not_under_sibling hmn hu
        rw [hlk, hfsA]
        have := hlook1 r
        rw [show localPath ++ (p ++ [nm]) ++ r = localPath ++ p ++ nm :: r by simp] at this
        rw [this]
        simp [entriesLookup]
      · have hnr : namesHas rest n = true := by
          rcases (namesHas_cons_iff nm e rest n).mp hn with h | h
          · exact absurd h hx
          · exact h
        rw [hmem2 n r hnr]
        simp [entriesLookup, hx]
    · intro q hq
      rw [hframe2 q (fun m hm hu => hq m (by simp [namesHas, hm]) hu)]
      rw [hfsA, hframe1 q (by
        rw [← List.append_assoc]
        exact hq nm (by simp [namesHas]))]
end

/-- C1: for every remote directory tree, `downloadDirectory` succeeds,
creates `localPath` unconditionally first, skips the walk's root entry,
and creates exactly one local directory per remote directory and one
local file with identical byte content per remote file, each placed at
`localPath` extended by the entry's path relative to the remote root. -/
theorem downloadDirectory_mirror (e : Entry) (localPath : Path)
    (hw : wfE e = true) (hd : isDirE e = true) (hne : localPath ≠ []) :
    (downloadDirectory e localPath []).2 = none ∧
      ∀ r, lookupFS (downloadDirectory e localPath []).1 (localPath ++ r) = treeLookup e r := by
  cases e with
  | file c so oo co => simp [isDirE] at hd
  | dir so ro es =>
    simp only [wfE] at hw
    obtain ⟨fs1, hfs1, hcreate, hframe0⟩ := by
      have h := mkdirAlong_fresh localPath [] [] (fun d hdne hd' => rfl)
      simpa only [List.nil_append] using h
    have hanc1 : ∀ q, Under q (localPath ++ ([] : Path)) → q ≠ [] →
        lookupFS fs1 q = some Node.dirN := by
      intro q hq hqne
      rw [List.append_nil] at hq
      exact hcreate q hqne hq
    have hemp1 : ∀ n r, namesHas es n = true →
        lookupFS fs1 (localPath ++ ([] : Path) ++ n :: r) = none := by
      intro n r _
      rw [List.append_nil]
      rw [hframe0 (localPath ++ n :: r) (fun d _ hd' => by
        have hdl := under_length hd'
        intro hx
        have := congrArg List.length hx
        simp at this
        omega)]
      rfl
    obtain ⟨hnone, hmem, hframe⟩ := dl_children_ok es [] localPath fs1 hw hanc1 hemp1
    rw [map_ppre_nil] at hnone hmem hframe
    have hcomp : downloadDirectory (.dir so ro es) localPath [] =
        dlLoop (walkEntries es) localPath fs1 := by
      simp only [downloadDirectory, mkdirAll] at hfs1 ⊢
      rw [hfs1]
      simp [walkPre, dlLoop]
    rw [hcomp]
    refine ⟨hnone, ?_⟩
    intro r
    cases r with
    | nil =>
      simp only [List.append_nil, treeLookup]
      rw [hframe localPath (fun n _ hu => by
        rw [List.append_nil] at hu
        have := under_length hu
        simp at this)]
      exact hcreate localPath hne (under_refl localPath)
    | cons n rs =>
      simp only [treeLookup]
      by_cases hn : namesHas es n = true
      · have := hmem n rs hn
        rw [List.append_nil] at this
        exact this
      · rw [hframe (localPath ++ n :: rs) (fun m hm hu => by
          rw [List.append_nil] at hu
          have hmn : m ≠ n := fun hx => hn (by rw [← hx]; exact hm)
          exact not_under_sibling hmn hu)]
        rw [hframe0 (localPath ++ n :: rs) (fun d _ hd' => by
          have hdl := under_length hd'
          intro hx
          have := congrArg List.length hx
          simp at this
          omega)]
        rw [entriesLookup_not_member es n rs (by simpa using hn)]
        rfl

theorem downloadDirectory_mirror_witness :
    wfE sampleTree = true ∧ isDirE sampleTree = true ∧ (["dl"] : Path) ≠ [] ∧
      ((downloadDirectory sampleTree ["dl"] []).2 = none ∧
        ∀ r, lookupFS (downloadDirectory sampleTree ["dl"] []).1 (["dl"] ++ r) =
          treeLookup sampleTree r) :=
  ⟨rfl, rfl, by decide, downloadDirectory_mirror sampleTree ["dl"] rfl rfl (by decide)⟩

end ZeroS

namespace ZeroS

/-! ## Configuration store and command dispatch (0s.go lines 19-327, 488-556)

Paths handled by the dispatch layer are kept as strings, as in the
source.  The outside world (local filesystem, SSH server, transfers) is
abstracted as a record of oracles giving the result of each primitive
the handlers invoke; the handlers themselves mirror the source's control
flow over those oracles. -/

/-- The `Repository` struct (0s.go lines 24-32). -/
structure Repository where
  type : String
  path : String
  host : String
  port : Nat
  user : String
  privateKey : String
  password : String
deriving DecidableEq, Repr

/-- The zero value of `Repository`, as a Go map lookup of an absent key
yields it. -/
def zeroRepo : Repository := ⟨"", "", "", 0, "", "", ""⟩

/-- The `Config` struct (0s.go lines 19-22); the repositories map is an
association list of names to repositories. -/
structure Config where
  current : String
  repositories : List (String × Repository)
deriving DecidableEq, Repr

/-- Go map lookup: `config.Repositories[name]` with presence bit. -/
def lookupA : List (String × Repository) → String → Option Repository
  | [], _ => none
  | (k, v) :: t, n => if k = n then some v else lookupA t n

/-- Go map lookup without presence bit: absent keys yield the zero value. -/
def lookupD (l : List (String × Repository)) (n : String) : Repository :=
  (lookupA l n).getD zeroRepo

/-- Go map update: `config.Repositories[name] = repo`. -/
def putA : List (String × Repository) → String → Repository → List (String × Repository)
  | [], n, v => [(n, v)]
  | (k, w) :: t, n, v => if k = n then (n, v) :: t else (k, w) :: putA t n v

/-- Model of `filepath.Join` on already-clean string paths. -/
def joinP (a b : String) : String :=
  if a = "" then b else if a = "." then b else if b = "" then a else a ++ "/" ++ b

/-- Messages the program prints, one constructor per `fmt.Print*` site
the claims are about. -/
inductive Msg where
  | usage
  | loadError
  | specifyRepo
  | specifyGet
  | specifyPut
  | specifyCd
  | repoNotFound (name : String)
  | setTo (name : String)
  | saveError
  | changedDir (path : String)
  | accessError (path : String)
  | notDirError (path : String)
  | sshError
  | sftpError
  | getwdError
  | absError
  | copyError
  | statError
  | getError
  | uploadError
  | readError
  | availableRepos
  | listLine (name : String) (isCurrent : Bool)
  | entryLine (name : String) (isDir : Bool)
  | notImplShow (ty : String)
  | notImplGet (ty : String)
  | notImplPut (ty : String)
  | notImplCd (ty : String)
deriving DecidableEq, Repr

/-- The observable outcome of one process run: exit status, printed
messages, and the configuration written back to disk (`none` when
`saveConfig` was never reached). -/
structure POut where
  exit : Nat
  msgs : List Msg
  saved : Option Config
deriving DecidableEq, Repr

/-- Oracles for every outside-world primitive the handlers call.
`stat`/`sftpStat` return `none` on error and otherwise whether the path
is a directory; `readDir`/`sftpReadDir` return directory entries as
(name, isDirectory) pairs; the transfer oracles return `true` on
success; `saveOk` is whether `ioutil.WriteFile` succeeds. -/
structure World where
  stat : String → Option Bool
  readDir : String → Option (List (String × Bool))
  getwd : Option String
  absPath : String → Option String
  copyR : String → String → Bool
  sshConn : Repository → Bool
  sftpNew : Bool
  sftpStat : String → Option Bool
  sftpReadDir : String → Option (List (String × Bool))
  dlDir : String → String → Bool
  dlFile : String → String → Bool
  upload : String → String → Bool
  saveOk : Bool

/-- Model of `listRepositories` (0s.go lines 122-131).  Go iterates the
map in unspecified order; the stored order is used here. -/
def listRepositories (c : Config) : POut :=
  ⟨0, .availableRepos :: c.repositories.map (fun e => Msg.listLine e.1 (e.1 == c.current)),
    none⟩

/-- Model of `setRepository` (0s.go lines 133-151). -/
def setRepository (w : World) (c : Config) (name : String) : POut :=
  match lookupA c.repositories name with
  | none => ⟨1, [.repoNotFound name], none⟩
  | some _ =>
    if w.saveOk then ⟨0, [.setTo name], some { c with current := name }⟩
    else ⟨1, [.saveError], none⟩

/-- Directory-listing messages printed by `show` (0s.go lines 167-173
and 198-204). -/
def entryMsgs (l : List (String × Bool)) : List Msg :=
  l.map (fun e => Msg.entryLine e.1 e.2)

/-- Model of `showRepository` (0s.go lines 153-209). -/
def showRepository (w : World) (c : Config) : POut :=
  let repo := lookupD c.repositories c.current
  if repo.type = "local" ∨ repo.type = "network" then
    match w.readDir repo.path with
    | none => ⟨1, [.readError], none⟩
    | some l => ⟨0, entryMsgs l, none⟩
  else if repo.type = "ssh" then
    if w.sshConn repo = false then ⟨1, [.sshError], none⟩
    else if w.sftpNew = false then ⟨1, [.sftpError], none⟩
    else
      match w.sftpReadDir repo.path with
      | none => ⟨1, [.readError], none⟩
      | some l => ⟨0, entryMsgs l, none⟩
  else ⟨0, [.notImplShow repo.type], none⟩

/-- Model of `getRepository` (0s.go lines 211-278). -/
def getRepository (w : World) (c : Config) (name : String) : POut :=
  let repo := lookupD c.repositories c.current
  if repo.type = "local" ∨ repo.type = "network" then
    match w.getwd with
    | none => ⟨1, [.getwdError], none⟩
    | some wd =>
      if w.copyR (joinP repo.path name) (joinP wd name) then ⟨0, [], none⟩
      else ⟨1, [.copyError], none⟩
  else if repo.type = "ssh" then
    if w.sshConn repo = false then ⟨1, [.sshError], none⟩
    else if w.sftpNew = false then ⟨1, [.sftpError], none⟩
    else
      match w.getwd with
      | none => ⟨1, [.getwdError], none⟩
      | some wd =>
        match w.sftpStat (joinP repo.path name) with
        | none => ⟨1, [.statError], none⟩
        | some isDir =>
          if (if isDir then w.dlDir (joinP repo.path name) (joinP wd name)
              else w.dlFile (joinP repo.path name) (joinP wd name)) then ⟨0, [], none⟩
          else ⟨1, [.getError], none⟩
  else ⟨0, [.notImplGet repo.type], none⟩

/-- Model of `putRepository` (0s.go lines 280-327). -/
def putRepository (w : World) (c : Config) (name : String) : POut :=
  let repo := lookupD c.repositories c.current
  if repo.type = "local" ∨ repo.type = "network" then
    match w.absPath name with
    | none => ⟨1, [.absError], none⟩
    | some ap =>
      if w.copyR ap (joinP repo.path name) then ⟨0, [], none⟩
      else ⟨1, [.copyError], none⟩
  else if repo.type = "ssh" then
    if w.sshConn repo = false then ⟨1, [.sshError], none⟩
    else
      match w.absPath name with
      | none => ⟨1, [.absError], none⟩
      | some lp =>
        if w.upload lp (joinP repo.path name) then ⟨0, [], none⟩
        else ⟨1, [.uploadError], none⟩
  else ⟨0, [.notImplPut repo.type], none⟩

/-- The ssh branch of `cd` first replaces an empty stored path by `"."`
(0s.go lines 509-511). -/
def sshBaseRepo (r : Repository) : Repository :=
  if r.path = "" then { r with path := "." } else r

/-- Shared tail of `changeDirectory` (0s.go lines 548-555): write the
updated repository back into the map and save. -/
def finishCd (w : World) (c : Config) (repo' : Repository) : POut :=
  if w.saveOk then
    ⟨0, [.changedDir repo'.path],
      some { c with repositories := putA c.repositories c.current repo' }⟩
  else ⟨1, [.saveError], none⟩

/-- Model of `changeDirectory` (0s.go lines 488-556). -/
def changeDirectory (w : World) (c : Config) (newDir : String) : POut :=
  let repo := lookupD c.repositories c.current
  if repo.type = "local" ∨ repo.type = "network" then
    match w.stat (joinP repo.path newDir) with
    | none => ⟨1, [.accessError (joinP repo.path newDir)], none⟩
    | some false => ⟨1, [.notDirError (joinP repo.path newDir)], none⟩
    | some true => finishCd w c { repo with path := joinP repo.path newDir }
  else if repo.type = "ssh" then
    let repo1 := sshBaseRepo repo
    if w.sshConn repo1 = false then ⟨1, [.sshError], none⟩
    else if w.sftpNew = false then ⟨1, [.sftpError], none⟩
    else
      match w.sftpStat (joinP repo1.path newDir) with
      | none => ⟨1, [.accessError (joinP repo1.path newDir)], none⟩
      | some false => ⟨1, [.notDirError (joinP repo1.path newDir)], none⟩
      | some true => finishCd w c { repo1 with path := joinP repo1.path newDir }
  else ⟨0, [.notImplCd repo.type], none⟩

/-- Model of `main` (0s.go lines 34-83): config loading, argument
checks and command dispatch.  `loadRes` is the result of `loadConfig`. -/
def mainGo (w : World) (loadRes : Option Config) (args : List String) : POut :=
  match loadRes with
  | none => ⟨1, [.loadError], none⟩
  | some config =>
    match args with
    | [] => ⟨1, [.usage], none⟩
    | cmd :: rest =>
      if cmd = "list" then listRepositories config
      else if cmd = "set" then
        match rest with
        | [] => ⟨1, [.specifyRepo], none⟩
        | n :: _ => setRepository w config n
      else if cmd = "show" then showRepository w config
      else if cmd = "get" then
        match rest with
        | [] => ⟨1, [.specifyGet], none⟩
        | n :: _ => getRepository w config n
      else if cmd = "put" then
        match rest with
        | [] => ⟨1, [.specifyPut], none⟩
        | n :: _ => putRepository w config n
      else if cmd = "cd" then
        match rest with
        | [] => ⟨1, [.specifyCd], none⟩
        | n :: _ => changeDirectory w config n
      else ⟨0, [.usage], none⟩

end ZeroS

namespace ZeroS

theorem lookupA_putA_self (l : List (String × Repository)) (k : String) (v : Repository) :
    lookupA (putA l k v) k = some v := by
  induction l with
  | nil => simp [putA, lookupA]
  | cons kv t ih =>
    obtain ⟨k', v'⟩ := kv
    by_cases h : k' = k
    · simp [putA, h, lookupA]
    · simp [putA, h, lookupA, ih]

theorem lookupA_putA_other (l : List (String × Repository)) (k k' : String) (v : Repository)
    (h : k' ≠ k) : lookupA (putA l k v) k' = lookupA l k' := by
  induction l with
  | nil =>
    have : ¬ k = k' := fun hx => h hx.symm
    simp [putA, lookupA, this]
  | cons kv t ih =>
    obtain ⟨k'', v''⟩ := kv
    by_cases hk : k'' = k
    · subst hk
      have h1 : ¬ k'' = k' := fun hx => h (hx.symm.trans rfl)
      simp [putA, lookupA, h1]
    · by_cases hq : k'' = k'
      · subst hq
        simp [putA, lookupA, hk]
      · simp [putA, lookupA, hk, hq, ih]

theorem sshBaseRepo_override (r : Repository) (x : String) :
    { sshBaseRepo r with path := x } = { r with path := x } := by
  unfold sshBaseRepo
  by_cases h : r.path = "" <;> simp [h]

theorem sshBaseRepo_fields (r : Repository) :
    (sshBaseRepo r).type = r.type ∧ (sshBaseRepo r).path = (if r.path = "" then "." else r.path) := by
  unfold sshBaseRepo
  by_cases h : r.path = "" <;> simp [h]

/-- C5: for every repository name present in `config.repositories`,
`set N` makes `config.current = N` and persists the configuration; for
an absent name, nothing is saved (the persisted current is unchanged)
and the process exits with status 1. -/
theorem setRepository_spec (w : World) (c : Config) (n : String) (hs : w.saveOk = true) :
    (∀ r, lookupA c.repositories n = some r →
      setRepository w c n = ⟨0, [.setTo n], some { c with current := n }⟩) ∧
      (lookupA c.repositories n = none →
        setRepository w c n = ⟨1, [.repoNotFound n], none⟩) := by
  constructor
  · intro r hr
    simp [setRepository, hr, hs]
  · intro hr
    simp [setRepository, hr]

/-- World oracle in which every outside operation fails but saving
succeeds. -/
def w0 : World :=
  { stat := fun _ => none, readDir := fun _ => none, getwd := none,
    absPath := fun _ => none, copyR := fun _ _ => false, sshConn := fun _ => false,
    sftpNew := false, sftpStat := fun _ => none, sftpReadDir := fun _ => none,
    dlDir := fun _ _ => false, dlFile := fun _ _ => false, upload := fun _ _ => false,
    saveOk := true }

def repoLocal : Repository := ⟨"local", "/tmp/r", "", 0, "", "", ""⟩

def repoSsh : Repository := ⟨"ssh", "/srv", "h", 22, "u", "k", ""⟩

/-- Sample configuration with a local and an ssh repository. -/
def cfg1 : Config := ⟨"home", [("home", repoLocal), ("box", repoSsh)]⟩

theorem setRepository_spec_witness :
    w0.saveOk = true ∧
      setRepository w0 cfg1 "box" = ⟨0, [.setTo "box"], some { cfg1 with current := "box" }⟩ ∧
      setRepository w0 cfg1 "nope" = ⟨1, [.repoNotFound "nope"], none⟩ :=
  ⟨rfl, (setRepository_spec w0 cfg1 "box" rfl).1 repoSsh rfl,
    (setRepository_spec w0 cfg1 "nope" rfl).2 rfl⟩

end ZeroS

namespace ZeroS

/-- C4 (amended): `cd` validates that the joined path is an existing
directory only when the current repository's type is `local`, `network`
or (against the remote filesystem, once the connection and session
succeed) `ssh`: on success the stored path of the current repository is
replaced by the joined path and the configuration is persisted; if the
path does not exist or is not a directory, nothing is saved (the
persisted path is unchanged) and the process exits with status 1.  For
any other repository type `cd` validates nothing, prints a
not-implemented message and exits with status 0 without saving. -/
theorem changeDirectory_spec (w : World) (c : Config) (d : String) (r : Repository)
    (hr : lookupD c.repositories c.current = r) (hs : w.saveOk = true) :
    ((r.type = "local" ∨ r.type = "network") →
      (w.stat (joinP r.path d) = some true →
        changeDirectory w c d = ⟨0, [.changedDir (joinP r.path d)],
          some { c with repositories := putA c.repositories c.current ({ r with path := joinP r.path d }) }⟩) ∧
      (w.stat (joinP r.path d) ≠ some true →
        (changeDirectory w c d).exit = 1 ∧ (changeDirectory w c d).saved = none)) ∧
    (r.type = "ssh" → w.sshConn (sshBaseRepo r) = true → w.sftpNew = true →
      (w.sftpStat (joinP (sshBaseRepo r).path d) = some true →
        changeDirectory w c d = ⟨0, [.changedDir (joinP (sshBaseRepo r).path d)],
          some { c with repositories := putA c.repositories c.current ({ r with path := joinP (sshBaseRepo r).path d }) }⟩) ∧
      (w.sftpStat (joinP (sshBaseRepo r).path d) ≠ some true →
        (changeDirectory w c d).exit = 1 ∧ (changeDirectory w c d).saved = none)) ∧
    (r.type ≠ "local" → r.type ≠ "network" → r.type ≠ "ssh" →
      changeDirectory w c d = ⟨0, [.notImplCd r.type], none⟩) := by
  refine ⟨?_, ?_, ?_⟩
  · intro ht
    constructor
    · intro hstat
      simp only [changeDirectory, hr]
      rw [if_pos ht, hstat]
      simp [finishCd, hs]
    · intro hne
      simp only [changeDirectory, hr]
      rw [if_pos ht]
      cases hstat : w.stat (joinP r.path d) with
      | none => exact ⟨rfl, rfl⟩
      | some b =>
        cases b with
        | false => exact ⟨rfl, rfl⟩
        | true => exact absurd hstat hne
  · intro ht hconn hsftp
    have hnlocal : ¬ (r.type = "local" ∨ r.type = "network") := by
      rintro (h | h) <;> simp [ht] at h
    constructor
    · intro hstat
      simp only [changeDirectory, hr]
      rw [if_neg hnlocal, if_pos ht, if_neg (by simp [hconn]), if_neg (by simp [hsftp]), hstat]
      simp [finishCd, hs, sshBaseRepo_override]
    · intro hne
      simp only [changeDirectory, hr]
      rw [if_neg hnlocal, if_pos ht, if_neg (by simp [hconn]), if_neg (by simp [hsftp])]
      cases hstat : w.sftpStat (joinP (sshBaseRepo r).path d) with
      | none => exact ⟨rfl, rfl⟩
      | some b =>
        cases b with
        | false => exact ⟨rfl, rfl⟩
        | true => exact absurd hstat hne
  · intro h1 h2 h3
    simp only [changeDirectory, hr]
    rw [if_neg (by rintro (h | h); exact h1 h; exact h2 h), if_neg h3]

/-- Configuration whose current repository has an unimplemented type. -/
def cfgU : Config := ⟨"r", [("r", ⟨"s3", "base", "", 0, "", "", ""⟩)]⟩

/-- Counterexample to C4 as stated: with a current repository of an
unimplemented type, the joined path does not exist (`stat` fails), yet
`cd` exits with status 0 instead of a non-zero status, performing no
validation at all. -/
theorem changeDirectory_unknown_type_exit_zero :
    w0.stat (joinP "base" "x") = none ∧
      changeDirectory w0 cfgU "x" = ⟨0, [.notImplCd "s3"], none⟩ :=
  ⟨rfl, by decide⟩

/-- World oracle whose `stat` sees `/tmp/r/sub` as a directory. -/
def w2 : World :=
  { w0 with stat := fun p => if p = "/tmp/r/sub" then some true else none }

theorem changeDirectory_spec_witness :
    lookupD cfg1.repositories cfg1.current = repoLocal ∧ w2.saveOk = true ∧
      (repoLocal.type = "local" ∨ repoLocal.type = "network") ∧
      w2.stat (joinP repoLocal.path "sub") = some true ∧
      changeDirectory w2 cfg1 "sub" = ⟨0, [.changedDir (joinP repoLocal.path "sub")],
        some { cfg1 with repositories := putA cfg1.repositories cfg1.current ({ repoLocal with path := joinP repoLocal.path "sub" }) }⟩ :=
  ⟨by decide, rfl, Or.inl rfl, by decide,
    ((changeDirectory_spec w2 cfg1 "sub" repoLocal (by decide) rfl).1 (Or.inl rfl)).1 (by decide)⟩

end ZeroS

namespace ZeroS

theorem changeDirectory_saved (w : World) (c : Config) (d : String) (c2 : Config)
    (h : (changeDirectory w c d).saved = some c2) :
    ∃ p, c2 = { c with repositories := putA c.repositories c.current ({ lookupD c.repositories c.current with path := p }) } := by
  simp only [changeDirectory] at h
  by_cases h1 : (lookupD c.repositories c.current).type = "local" ∨
      (lookupD c.repositories c.current).type = "network"
  · rw [if_pos h1] at h
    cases hstat : w.stat (joinP (lookupD c.repositories c.current).path d) with
    | none => rw [hstat] at h; exact Option.noConfusion h
    | some b =>
      rw [hstat] at h
      cases b with
      | false => exact Option.noConfusion h
      | true =>
        simp only [finishCd] at h
        by_cases hsv : w.saveOk
        · rw [if_pos hsv] at h
          injection h with h'
          exact ⟨joinP (lookupD c.repositories c.current).path d, h'.symm⟩
        · rw [if_neg hsv] at h; exact Option.noConfusion h
  · rw [if_neg h1] at h
    by_cases h2 : (lookupD c.repositories c.current).type = "ssh"
    · rw [if_pos h2] at h
      by_cases h3 : w.sshConn (sshBaseRepo (lookupD c.repositories c.current)) = false
      · rw [if_pos h3] at h; exact Option.noConfusion h
      · rw [if_neg h3] at h
        by_cases h4 : w.sftpNew = false
        · rw [if_pos h4] at h; exact Option.noConfusion h
        · rw [if_neg h4] at h
          cases hstat : w.sftpStat
              (joinP (sshBaseRepo (lookupD c.repositories c.current)).path d) with
          | none => rw [hstat] at h; exact Option.noConfusion h
          | some b =>
            rw [hstat] at h
            cases b with
            | false => exact Option.noConfusion h
            | true =>
              simp only [finishCd] at h
              by_cases hsv : w.saveOk
              · rw [if_pos hsv] at h
                injection h with h'
                rw [sshBaseRepo_override] at h'
                exact ⟨joinP (sshBaseRepo (lookupD c.repositories c.current)).path d, h'.symm⟩
              · rw [if_neg hsv] at h; exact Option.noConfusion h
    · rw [if_neg h2] at h; exact Option.noConfusion h

/-- C10: a successful `set N` changes only the `current` field of the
persisted configuration, leaving every repository entry unchanged; a
successful `cd` changes only the `path` field of the repository entry
named by `config.current`, leaving `current`, every other entry, and
every other field of that entry unchanged. -/
theorem persisted_frame (w : World) (c : Config) (n d : String) :
    (∀ c1, (setRepository w c n).saved = some c1 →
      c1.current = n ∧ c1.repositories = c.repositories) ∧
    (∀ c2, (changeDirectory w c d).saved = some c2 →
      c2.current = c.current ∧
      (∀ k, k ≠ c.current → lookupA c2.repositories k = lookupA c.repositories k) ∧
      ∃ p, lookupA c2.repositories c.current =
        some ({ lookupD c.repositories c.current with path := p })) := by
  constructor
  · intro c1 h
    simp only [setRepository] at h
    cases hl : lookupA c.repositories n with
    | none => rw [hl] at h; exact Option.noConfusion h
    | some r =>
      rw [hl] at h
      by_cases hsv : w.saveOk
      · rw [if_pos hsv] at h
        injection h with h'
        subst h'
        exact ⟨rfl, rfl⟩
      · rw [if_neg hsv] at h; exact Option.noConfusion h
  · intro c2 h
    obtain ⟨p, hp⟩ := changeDirectory_saved w c d c2 h
    subst hp
    refine ⟨rfl, ?_, ?_⟩
    · intro k hk
      exact lookupA_putA_other c.repositories c.current k _ hk
    · exact ⟨p, lookupA_putA_self c.repositories c.current _⟩

theorem persisted_frame_witness :
    ({ cfg1 with current := "box" } : Config).current = "box" ∧
      ({ cfg1 with current := "box" } : Config).repositories = cfg1.repositories :=
  (persisted_frame w0 cfg1 "box" "x").1 { cfg1 with current := "box" } (by decide)

/-- C9 (amended): whenever `config.current` is not a key of the
repositories map, the Go map lookup yields the zero-valued `Repository`
whose type is the empty string, so `show`, `get`, `put` and `cd` print a
not-implemented message for that type and exit with status 0 without
saving the configuration. -/
theorem absent_current_not_implemented (w : World) (c : Config) (name dir : String)
    (h : lookupA c.repositories c.current = none) :
    lookupD c.repositories c.current = zeroRepo ∧
      showRepository w c = ⟨0, [.notImplShow ""], none⟩ ∧
      getRepository w c name = ⟨0, [.notImplGet ""], none⟩ ∧
      putRepository w c name = ⟨0, [.notImplPut ""], none⟩ ∧
      changeDirectory w c dir = ⟨0, [.notImplCd ""], none⟩ := by
  have hz : lookupD c.repositories c.current = zeroRepo := by
    simp [lookupD, h]
  have hno1 : ¬ (zeroRepo.type = "local" ∨ zeroRepo.type = "network") := by decide
  have hno2 : zeroRepo.type ≠ "ssh" := by decide
  refine ⟨hz, ?_, ?_, ?_, ?_⟩
  · simp only [showRepository, hz]
    rw [if_neg hno1, if_neg hno2]
    rfl
  · simp only [getRepository, hz]
    rw [if_neg hno1, if_neg hno2]
    rfl
  · simp only [putRepository, hz]
    rw [if_neg hno1, if_neg hno2]
    rfl
  · simp only [changeDirectory, hz]
    rw [if_neg hno1, if_neg hno2]
    rfl

/-- Configuration whose current repository name is absent from the map. -/
def cfgG : Config := ⟨"gone", [("home", repoLocal)]⟩

theorem absent_current_witness :
    lookupA cfgG.repositories cfgG.current = none ∧
      (lookupD cfgG.repositories cfgG.current = zeroRepo ∧
        showRepository w0 cfgG = ⟨0, [.notImplShow ""], none⟩ ∧
        getRepository w0 cfgG "f" = ⟨0, [.notImplGet ""], none⟩ ∧
        putRepository w0 cfgG "f" = ⟨0, [.notImplPut ""], none⟩ ∧
        changeDirectory w0 cfgG "d" = ⟨0, [.notImplCd ""], none⟩) :=
  ⟨by decide, absent_current_not_implemented w0 cfgG "f" "d" (by decide)⟩

/-- Configuration in which `current` is empty and the empty string is
itself a repository name. -/
def cfgE : Config := ⟨"", [("", ⟨"local", "p", "", 0, "", "", ""⟩)]⟩

/-- World oracle whose `readDir` sees one file `a.txt` under `p`. -/
def w1 : World :=
  { w0 with readDir := fun p => if p = "p" then some [("a.txt", false)] else none }

/-- Whether an outcome printed any not-implemented message. -/
def hasNotImplMsg (p : POut) : Bool :=
  p.msgs.any (fun m =>
    match m with
    | .notImplShow _ => true
    | .notImplGet _ => true
    | .notImplPut _ => true
    | .notImplCd _ => true
    | _ => false)

/-- Counterexample to C9 as stated: with `config.current` empty but the
empty string itself a key of the repositories map, the lookup does not
yield a zero-valued Repository — `show` lists the repository directory
instead of printing a not-implemented message. -/
theorem show_empty_current_lists :
    cfgE.current = "" ∧
      showRepository w1 cfgE = ⟨0, [.entryLine "a.txt" false], none⟩ ∧
      hasNotImplMsg (showRepository w1 cfgE) = false :=
  ⟨rfl, by decide, by decide⟩

end ZeroS

namespace ZeroS

theorem listRepositories_exit_cases (c : Config) :
    (listRepositories c).exit = 0 ∨ (listRepositories c).exit = 1 := by
  left; rfl

theorem setRepository_exit_cases (w : World) (c : Config) (n : String) :
    (setRepository w c n).exit = 0 ∨ (setRepository w c n).exit = 1 := by
  simp only [setRepository]
  cases lookupA c.repositories n with
  | none => right; rfl
  | some r =>
    by_cases hsv : w.saveOk
    · simp [hsv]
    · simp [hsv]

theorem showRepository_exit_cases (w : World) (c : Config) :
    (showRepository w c).exit = 0 ∨ (showRepository w c).exit = 1 := by
  simp only [showRepository]
  by_cases h1 : (lookupD c.repositories c.current).type = "local" ∨
      (lookupD c.repositories c.current).type = "network"
  · rw [if_pos h1]
    cases w.readDir (lookupD c.repositories c.current).path with
    | none => right; rfl
    | some l => left; rfl
  · rw [if_neg h1]
    by_cases h2 : (lookupD c.repositories c.current).type = "ssh"
    · rw [if_pos h2]
      by_cases h3 : w.sshConn (lookupD c.repositories c.current) = false
      · rw [if_pos h3]; right; rfl
      · rw [if_neg h3]
        by_cases h4 : w.sftpNew = false
        · rw [if_pos h4]; right; rfl
        · rw [if_neg h4]
          cases w.sftpReadDir (lookupD c.repositories c.current).path with
          | none => right; rfl
          | some l => left; rfl
    · rw [if_neg h2]; left; rfl

theorem getRepository_exit_cases (w : World) (c : Config) (n : String) :
    (getRepository w c n).exit = 0 ∨ (getRepository w c n).exit = 1 := by
  simp only [getRepository]
  by_cases h1 : (lookupD c.repositories c.current).type = "local" ∨
      (lookupD c.repositories c.current).type = "network"
  · rw [if_pos h1]
    cases w.getwd with
    | none => right; rfl
    | some wd =>
      by_cases hc : w.copyR (joinP (lookupD c.repositories c.current).path n) (joinP wd n) = true
      · simp [hc]
      · simp [hc]
  · rw [if_neg h1]
    by_cases h2 : (lookupD c.repositories c.current).type = "ssh"
    · rw [if_pos h2]
      by_cases h3 : w.sshConn (lookupD c.repositories c.current) = false
      · rw [if_pos h3]; right; rfl
      · rw [if_neg h3]
        by_cases h4 : w.sftpNew = false
        · rw [if_pos h4]; right; rfl
        · rw [if_neg h4]
          cases w.getwd with
          | none => right; rfl
          | some wd =>
            cases w.sftpStat (joinP (lookupD c.repositories c.current).path n) with
            | none => right; rfl
            | some isDir =>
              by_cases h5 : (if isDir then
                  w.dlDir (joinP (lookupD c.repositories c.current).path n) (joinP wd n)
                else
                  w.dlFile (joinP (lookupD c.repositories c.current).path n) (joinP wd n)) = true
              · simp [h5]
              · simp [h5]
    · rw [if_neg h2]; left; rfl

theorem putRepository_exit_cases (w : World) (c : Config) (n : String) :
    (putRepository w c n).exit = 0 ∨ (putRepository w c n).exit = 1 := by
  simp only [putRepository]
  by_cases h1 : (lookupD c.repositories c.current).type = "local" ∨
      (lookupD c.repositories c.current).type = "network"
  · rw [if_pos h1]
    cases w.absPath n with
    | none => right; rfl
    | some ap =>
      by_cases hc : w.copyR ap (joinP (lookupD c.repositories c.current).path n) = true
      · simp [hc]
      · simp [hc]
  · rw [if_neg h1]
    by_cases h2 : (lookupD c.repositories c.current).type = "ssh"
    · rw [if_pos h2]
      by_cases h3 : w.sshConn (lookupD c.repositories c.current) = false
      · rw [if_pos h3]; right; rfl
      · rw [if_neg h3]
        cases w.absPath n with
        | none => right; rfl
        | some lp =>
          by_cases hu : w.upload lp (joinP (lookupD c.repositories c.current).path n) = true
          · simp [hu]
          · simp [hu]
    · rw [if_neg h2]; left; rfl

theorem finishCd_exit_cases (w : World) (c : Config) (r : Repository) :
    (finishCd w c r).exit = 0 ∨ (finishCd w c r).exit = 1 := by
  simp only [finishCd]
  by_cases hsv : w.saveOk
  · rw [if_pos hsv]; left; rfl
  · rw [if_neg hsv]; right; rfl

theorem changeDirectory_exit_cases (w : World) (c : Config) (d : String) :
    (changeDirectory w c d).exit = 0 ∨ (changeDirectory w c d).exit = 1 := by
  simp only [changeDirectory]
  by_cases h1 : (lookupD c.repositories c.current).type = "local" ∨
      (lookupD c.repositories c.current).type = "network"
  · rw [if_pos h1]
    cases w.stat (joinP (lookupD c.repositories c.current).path d) with
    | none => right; rfl
    | some b =>
      cases b with
      | false => right; rfl
      | true => exact finishCd_exit_cases w c _
  · rw [if_neg h1]
    by_cases h2 : (lookupD c.repositories c.current).type = "ssh"
    · rw [if_pos h2]
      by_cases h3 : w.sshConn (sshBaseRepo (lookupD c.repositories c.current)) = false
      · rw [if_pos h3]; right; rfl
      · rw [if_neg h3]
        by_cases h4 : w.sftpNew = false
        · rw [if_pos h4]; right; rfl
        · rw [if_neg h4]
          cases w.sftpStat (joinP (sshBaseRepo (lookupD c.repositories c.current)).path d) with
          | none => right; rfl
          | some b =>
            cases b with
            | false => right; rfl
            | true => exact finishCd_exit_cases w c _
    · rw [if_neg h2]; left; rfl

/-- C8 (amended): `set`, `get`, `put` and `cd` invoked without their one
required argument print a message and exit with status 1; an
unrecognized command prints only the usage text and exits with status 0;
invoking the program with no arguments prints only the usage text but
exits with status 1, not 0; and every run exits with status 0 or 1
(1 on every operational error). -/
theorem main_dispatch_spec (w : World) (c : Config) (args : List String) :
    mainGo w (some c) [] = ⟨1, [.usage], none⟩ ∧
      mainGo w (some c) ["set"] = ⟨1, [.specifyRepo], none⟩ ∧
      mainGo w (some c) ["get"] = ⟨1, [.specifyGet], none⟩ ∧
      mainGo w (some c) ["put"] = ⟨1, [.specifyPut], none⟩ ∧
      mainGo w (some c) ["cd"] = ⟨1, [.specifyCd], none⟩ ∧
      (∀ cmd rest, cmd ∉ (["list", "set", "show", "get", "put", "cd"] : List String) →
        mainGo w (some c) (cmd :: rest) = ⟨0, [.usage], none⟩) ∧
      ((mainGo w (some c) args).exit = 0 ∨ (mainGo w (some c) args).exit = 1) := by
  refine ⟨rfl, rfl, rfl, rfl, rfl, ?_, ?_⟩
  · intro cmd rest h
    simp only [List.mem_cons, List.not_mem_nil, or_false, not_or] at h
    obtain ⟨h1, h2, h3, h4, h5, h6⟩ := h
    simp [mainGo, h1, h2, h3, h4, h5, h6]
  · cases args with
    | nil => right; rfl
    | cons cmd rest =>
      by_cases h1 : cmd = "list"
      · subst h1
        exact listRepositories_exit_cases c
      · by_cases h2 : cmd = "set"
        · subst h2
          cases rest with
          | nil => right; rfl
          | cons n t => exact setRepository_exit_cases w c n
        · by_cases h3 : cmd = "show"
          · subst h3
            exact showRepository_exit_cases w c
          · by_cases h4 : cmd = "get"
            · subst h4
              cases rest with
              | nil => right; rfl
              | cons n t => exact getRepository_exit_cases w c n
            · by_cases h5 : cmd = "put"
              · subst h5
                cases rest with
                | nil => right; rfl
                | cons n t => exact putRepository_exit_cases w c n
              · by_cases h6 : cmd = "cd"
                · subst h6
                  cases rest with
                  | nil => right; rfl
                  | cons n t => exact changeDirectory_exit_cases w c n
                · left
                  simp [mainGo, h1, h2, h3, h4, h5, h6]

/-- Counterexample to C8 as stated: invoking the program with no
arguments is a usage-only invocation (its only output is the usage
text), yet the process exits with status 1, not 0. -/
theorem main_no_args_usage_exit_one :
    (mainGo w0 (some cfg1) []).msgs = [Msg.usage] ∧ (mainGo w0 (some cfg1) []).exit ≠ 0 :=
  ⟨rfl, by decide⟩

theorem main_dispatch_spec_witness :
    mainGo w0 (some cfg1) ["frobnicate"] = ⟨0, [Msg.usage], none⟩ :=
  (main_dispatch_spec w0 cfg1 []).2.2.2.2.2.1 "frobnicate" [] (by decide)

end ZeroS

namespace ZeroS

/-! ## The JSON configuration file (0s.go lines 85-120) -/

/-- JSON values; object fields keep the file's textual order. -/
inductive Json where
  | jnull : Json
  | jbool : Bool → Json
  | jnum : Int → Json
  | jstr : String → Json
  | jarr : List Json → Json
  | jobj : List (String × Json) → Json

/-- Last-wins lookup of an object field, as `encoding/json`'s sequential
processing of duplicate keys behaves. -/
def objGet (fs : List (String × Json)) (k : String) : Option Json :=
  fs.foldl (fun acc e => if e.1 = k then some e.2 else acc) none

def jstrD : Option Json → String
  | some (.jstr s) => s
  | _ => ""

def jnatD : Option Json → Nat
  | some (.jnum n) => n.toNat
  | _ => 0

/-- Decoding of a `Repository` from its JSON object (field tags at
0s.go lines 24-32; Go's case-insensitive field matching is modelled
exact-case, which well-formed files use). -/
def decodeRepository (j : Json) : Repository :=
  match j with
  | .jobj fs =>
    { type := jstrD (objGet fs "type"), path := jstrD (objGet fs "path"),
      host := jstrD (objGet fs "host"), port := jnatD (objGet fs "port"),
      user := jstrD (objGet fs "user"), privateKey := jstrD (objGet fs "private_key"),
      password := jstrD (objGet fs "password") }
  | _ => zeroRepo

/-- Decoding of a `Config` (0s.go lines 99-101).  A missing or
non-object `repositories` field yields an empty map; Go would keep a nil
map there (marshalled as `null`), a difference that cannot arise under
the round-trip theorem's hypotheses, which require the field to be a
present object. -/
def decodeConfig (j : Json) : Config :=
  match j with
  | .jobj fs =>
    { current := jstrD (objGet fs "current"),
      repositories :=
        match objGet fs "repositories" with
        | some (.jobj rs) => rs.map (fun e => (e.1, decodeRepository e.2))
        | _ => [] }
  | _ => ⟨"", []⟩

def hexDigit (n : Nat) : Char :=
  if n < 10 then Char.ofNat (48 + n) else Char.ofNat (87 + n)

/-- String escaping of `encoding/json` (with its default HTML escaping
of angle brackets and ampersands). -/
def escapeChar (ch : Char) : String :=
  if ch = '"' then "\\\""
  else if ch = '\\' then "\\\\"
  else if ch = '\n' then "\\n"
  else if ch = '\r' then "\\r"
  else if ch = '\t' then "\\t"
  else if ch = '<' then "\\u003c"
  else if ch = '>' then "\\u003e"
  else if ch = '&' then "\\u0026"
  else if ch.toNat < 32 then
    "\\u00" ++ String.mk [hexDigit (ch.toNat / 16), hexDigit (ch.toNat % 16)]
  else String.mk [ch]

def escapeJson (s : String) : String := String.join (s.data.map escapeChar)

def qs (s : String) : String := "\"" ++ escapeJson s ++ "\""

/-- The fields `encoding/json` emits for a `Repository`, in struct
order, honouring the `omitempty` tags (0s.go lines 24-32). -/
def repoFields (r : Repository) : List (String × String) :=
  [("type", qs r.type)] ++
    (if r.path = "" then [] else [("path", qs r.path)]) ++
    (if r.host = "" then [] else [("host", qs r.host)]) ++
    (if r.port = 0 then [] else [("port", toString r.port)]) ++
    (if r.user = "" then [] else [("user", qs r.user)]) ++
    (if r.privateKey = "" then [] else [("private_key", qs r.privateKey)]) ++
    (if r.password = "" then [] else [("password", qs r.password)])

/-- Render an object from rendered fields, fields indented by
`innerInd` and the closing brace by `outerInd`, as `MarshalIndent`
nests objects. -/
def renderObj (innerInd outerInd : String) (fields : List (String × String)) : String :=
  match fields with
  | [] => "\x7b\x7d"
  | _ =>
    "\x7b\n" ++
      String.intercalate ",\n" (fields.map (fun f => innerInd ++ qs f.1 ++ ": " ++ f.2)) ++
      "\n" ++ outerInd ++ "\x7d"

/-- Marshalling of the repositories map: `encoding/json` iterates map
keys in sorted order and renders each value. -/
def marshalRepos (rs : List (String × Repository)) : String :=
  match rs with
  | [] => "\x7b\x7d"
  | _ =>
    let ks := (rs.map Prod.fst).insertionSort (· ≤ ·)
    "\x7b\n" ++
      String.intercalate ",\n"
        (ks.map (fun k =>
          "    " ++ qs k ++ ": " ++ renderObj "      " "    " (repoFields (lookupD rs k)))) ++
      "\n  \x7d"

/-- Model of the `json.MarshalIndent(config, "", "  ")` output written
by `saveConfig` (0s.go lines 106-120). -/
def marshalConfig (c : Config) : String :=
  "\x7b\n  " ++ qs "current" ++ ": " ++ qs c.current ++ ",\n  " ++
    qs "repositories" ++ ": " ++ marshalRepos c.repositories ++ "\n\x7d"

theorem lookupA_perm {l1 l2 : List (String × Repository)} (h : l1.Perm l2) :
    (l1.map Prod.fst).Nodup → ∀ k, lookupA l1 k = lookupA l2 k := by
  induction h with
  | nil => intro _ k; rfl
  | cons x h ih =>
    intro hnd k
    obtain ⟨kx, vx⟩ := x
    simp only [List.map_cons, List.nodup_cons] at hnd
    simp only [lookupA]
    by_cases hk : kx = k
    · simp [hk]
    · simp [hk, ih hnd.2 k]
  | swap x y l =>
    intro hnd k
    obtain ⟨kx, vx⟩ := x
    obtain ⟨ky, vy⟩ := y
    simp only [List.map_cons, List.nodup_cons, List.mem_cons] at hnd
    have hxy : ky ≠ kx := by
      intro hx
      exact hnd.1 (Or.inl hx)
    simp only [lookupA]
    by_cases hk1 : ky = k
    · subst hk1
      have hk2 : ¬ kx = ky := fun hx => hxy hx.symm
      simp [hk2]
    · by_cases hk2 : kx = k
      · simp [hk1, hk2]
      · simp [hk1, hk2]
  | trans h1 h2 ih1 ih2 =>
    intro hnd k
    refine (ih1 hnd k).trans (ih2 ?_ k)
    exact ((h1.map Prod.fst).nodup_iff).mp hnd

theorem sortedKeys_eq {l1 l2 : List String} (h : l1.Perm l2) :
    l1.insertionSort (· ≤ ·) = l2.insertionSort (· ≤ ·) :=
  List.eq_of_perm_of_sorted
    ((List.perm_insertionSort _ l1).trans (h.trans (List.perm_insertionSort _ l2).symm))
    (List.sorted_insertionSort _ l1) (List.sorted_insertionSort _ l2)

theorem marshalRepos_perm {rs1 rs2 : List (String × Repository)} (h : rs1.Perm rs2)
    (hnd : (rs1.map Prod.fst).Nodup) : marshalRepos rs1 = marshalRepos rs2 := by
  cases rs1 with
  | nil =>
    rw [List.Perm.eq_nil h.symm]
  | cons a t =>
    cases hrs2 : rs2 with
    | nil =>
      subst hrs2
      cases List.Perm.eq_nil h
    | cons b t2 =>
      have hab : (a :: t).Perm (b :: t2) := hrs2 ▸ h
      simp only [marshalRepos]
      have hkeys : ((a :: t).map Prod.fst).insertionSort (· ≤ ·) =
          ((b :: t2).map Prod.fst).insertionSort (· ≤ ·) :=
        sortedKeys_eq (hab.map Prod.fst)
      have hfun : (fun k => "    " ++ qs k ++ ": " ++
            renderObj "      " "    " (repoFields (lookupD (a :: t) k))) =
          (fun k => "    " ++ qs k ++ ": " ++
            renderObj "      " "    " (repoFields (lookupD (b :: t2) k))) := by
        funext k
        have : lookupD (a :: t) k = lookupD (b :: t2) k := by
          unfold lookupD
          rw [lookupA_perm hab hnd k]
        rw [this]
      rw [hkeys, hfun]

/-- C6: `save(load(config file))` is canonical: for well-formed files,
the two-space-indented output of `marshalConfig` after decoding depends
only on the decoded `current` value and the set of repository entries,
not on the key order of the original file; the repositories map is
serialized with sorted keys. -/
theorem saveLoad_canonical (f1 f2 r1 r2 : List (String × Json))
    (hcur : objGet f1 "current" = objGet f2 "current")
    (h1 : objGet f1 "repositories" = some (.jobj r1))
    (h2 : objGet f2 "repositories" = some (.jobj r2))
    (hperm : r1.Perm r2)
    (hnd : (r1.map Prod.fst).Nodup) :
    marshalConfig (decodeConfig (.jobj f1)) = marshalConfig (decodeConfig (.jobj f2)) := by
  have hmr : marshalRepos (r1.map (fun e => (e.1, decodeRepository e.2))) =
      marshalRepos (r2.map (fun e => (e.1, decodeRepository e.2))) := by
    apply marshalRepos_perm (hperm.map _)
    rw [List.map_map]
    have hcomp : (Prod.fst ∘ fun e : String × Json => (e.1, decodeRepository e.2)) =
        Prod.fst := by
      funext e; rfl
    rw [hcomp]
    exact hnd
  simp only [decodeConfig, h1, h2, marshalConfig]
  rw [hcur, hmr]

def repoJa : Json := .jobj [("type", .jstr "local"), ("path", .jstr "/p")]

def repoJb : Json := .jobj [("type", .jstr "ssh")]

/-- Two config files holding the same data with different key order. -/
def fileJ1 : List (String × Json) :=
  [("current", .jstr "a"), ("repositories", .jobj [("a", repoJa), ("b", repoJb)])]

def fileJ2 : List (String × Json) :=
  [("repositories", .jobj [("b", repoJb), ("a", repoJa)]), ("current", .jstr "a")]

theorem saveLoad_canonical_witness :
    marshalConfig (decodeConfig (.jobj fileJ1)) = marshalConfig (decodeConfig (.jobj fileJ2)) :=
  saveLoad_canonical fileJ1 fileJ2 [("a", repoJa), ("b", repoJb)] [("b", repoJb), ("a", repoJa)]
    rfl rfl rfl (List.Perm.swap ("b", repoJb) ("a", repoJa) []) (by decide)

inductive LoadErr where
  | openErr : LoadErr
deriving DecidableEq, Repr

/-- The state of the fixed-path config file as `loadConfig` sees it:
missing, or present with its bytes parsed (`none` when they are not
well-formed JSON). -/
inductive ConfigFile where
  | missing : ConfigFile
  | present : Option Json → ConfigFile

/-- Model of `loadConfig` (0s.go lines 85-104): a missing file is an
error, but the error result of `json.Unmarshal` is discarded (line 101),
so malformed contents leave the zero-valued `Config` and load reports
success. -/
def loadConfig : ConfigFile → Except LoadErr Config
  | .missing => .error .openErr
  | .present p =>
    match p with
    | some j => .ok (decodeConfig j)
    | none => .ok ⟨"", []⟩

/-- C7 evaluated at the failing input: a present but malformed config
file makes `loadConfig` return the zero-valued `Config` with no error,
although the claim (and the spec's stated intent) requires an error;
the missing-file half of the claim does hold. -/
theorem loadConfig_malformed_returns_ok :
    loadConfig (.present none) = .ok ⟨"", []⟩ ∧ loadConfig .missing = .error .openErr :=
  ⟨rfl, rfl⟩

end ZeroS
